import Mathlib

/-!
Verification of the time-series interpolation engine of
`stonesoup/functions/interpolate.py`: `time_range`,
`interpolate_state_mutable_sequence` and its helper `_get_previous_state`.

Timestamps (`datetime.datetime`) and vector components are modelled as
rationals; `datetime` arithmetic and the numpy float arithmetic of the source
are exact in this model.  A Python dict is modelled as an association list
with Python's insertion-order semantics.
-/

set_option linter.unusedVariables false

/-- A timestamped state: a timestamp, a numeric vector of fixed dimensionality,
and opaque non-vector attributes (covariance, metadata tags, ...) abstracted as
a natural number.  Modelled from the spec: the `State` type itself lives in
`stonesoup/types/state.py`, outside the given sources. -/
structure TState where
  timestamp : ℚ
  state_vector : List ℚ
  attrs : ℕ
deriving DecidableEq, Repr

instance : Inhabited TState := ⟨⟨0, [], 0⟩⟩

/-- Modelled from the spec: the clone-with-override operation
(`State.from_state` in `stonesoup/types/state.py`, outside the given sources):
produce a new state carrying the reference state's non-vector attributes
together with the overridden timestamp and state vector. -/
def TState.from_state (template : TState) (timestamp : ℚ) (state_vector : List ℚ) : TState :=
  { timestamp := timestamp, state_vector := state_vector, attrs := template.attrs }

/-- Modelled from the spec: a `StateMutableSequence` is an ordered collection of
timestamped states; a `Track` additionally carries a `metadatas` side-list
(modelled by `metadatas = some _`; `none` models a plain sequence for which
`hasattr(new_sms, "metadatas")` is false). -/
structure SMS where
  states : List TState
  metadatas : Option (List ℕ)
deriving DecidableEq, Repr

/-- Python dict insertion: updating an existing key keeps its position and
leaves everything else unchanged, a new key is appended at the end. -/
def dictInsert : List (ℚ × TState) → ℚ → TState → List (ℚ × TState)
  | [], k, v => [(k, v)]
  | p :: d, k, v => if p.1 = k then (k, v) :: d else p :: dictInsert d k v

/-- Python dict lookup. -/
def dictGet : List (ℚ × TState) → ℚ → Option TState
  | [], _ => none
  | p :: d, k => if p.1 = k then some p.2 else dictGet d k

/-- The keys of a dict, in insertion order. -/
def dictKeys (d : List (ℚ × TState)) : List ℚ := d.map Prod.fst

/-- The dict comprehension `{state.timestamp: state for state in sms}` of the
source: later states overwrite earlier ones sharing a timestamp, and key order
is first-occurrence order. -/
def buildDict (states : List TState) : List (ℚ × TState) :=
  states.foldl (fun d s => dictInsert d s.timestamp s) []

/-- Python `max` over a nonempty list. -/
def listMax (l : List ℚ) : ℚ := l.foldl max (l.headD 0)

/-- Python `min` over a nonempty list. -/
def listMin (l : List ℚ) : ℚ := l.foldl min (l.headD 0)

/-- `sms[0].timestamp`, the lower bound of the valid time span. -/
def seqMinTime (ss : List TState) : ℚ := (ss.headD default).timestamp

/-- `sms[-1].timestamp`, the upper bound of the valid time span. -/
def seqMaxTime (ss : List TState) : ℚ := (ss.getLastD default).timestamp

/-- The in-range test `min_state_time <= time <= max_state_time` of the source. -/
def inRangeB (ss : List TState) (t : ℚ) : Bool :=
  decide (seqMinTime ss ≤ t ∧ t ≤ seqMaxTime ss)

/-- One-dimensional linear interpolation following `numpy.interp` on an
increasing sample sequence: clamp at the two ends, and interpolate linearly
between neighbouring samples. -/
def interp1 (x : ℚ) : List (ℚ × ℚ) → ℚ
  | [] => 0
  | [(_, y0)] => y0
  | (x0, y0) :: (x1, y1) :: rest =>
    if x ≤ x0 then y0
    else if x ≤ x1 then y0 + (y1 - y0) * (x - x0) / (x1 - x0)
    else interp1 x ((x1, y1) :: rest)

/-- The per-component interpolation loop of the source: row `i` of the output
is `np.interp(x=t, xp=dict keys, fp=row i of the stacked state vectors)`. -/
def interpVector (tl : List (ℚ × TState)) (ndim : ℕ) (t : ℚ) : List ℚ :=
  (List.range ndim).map (fun i =>
    interp1 t (tl.map (fun p => (p.1, p.2.state_vector.getD i 0))))

/-- `itertools.pairwise`: consecutive pairs of a list. -/
def pairwise {α : Type} (l : List α) : List (α × α) :=
  l.zip l.tail

/-- The advancing loop of the closure returned by `_get_previous_state`: drop
consecutive pairs while the later element's timestamp is strictly before `t`;
return the earlier element of the pair it stops at together with the cursor's
new position, or `none` when the pair iterator is exhausted (`StopIteration`). -/
def advanceCursor (t : ℚ) (cur : TState × TState) (rest : List (TState × TState)) :
    Option (TState × (TState × TState) × List (TState × TState)) :=
  if cur.2.timestamp < t then
    match rest with
    | [] => none
    | p :: rs => advanceCursor t p rs
  else some (cur.1, cur, rest)

/-- Errors raised by `interpolate_state_mutable_sequence`:  indexing an empty
sequence, `max()`/`min()` of an empty times list, the explicit `IndexError`
when every requested time is out of range, `StopIteration` escaping from the
predecessor cursor, and a `KeyError` on the final dict lookups. -/
inductive InterpError where
  | emptySequence
  | emptyTimes
  | allOutsideRange
  | exhaustedTimeline
  | missingKey
deriving DecidableEq, Repr

/-- The synthesis loop of the source: for each time to interpolate (in
ascending order), fetch the previous state from the cursor and insert the
clone-with-override state into the timestamp dict. -/
def synthLoop (vecF : ℚ → List ℚ) : (TState × TState) × List (TState × TState) →
    List (ℚ × TState) → List ℚ → Except InterpError (List (ℚ × TState))
  | _, d, [] => .ok d
  | (p, rest), d, t :: ts =>
    match advanceCursor t p rest with
    | none => .error .exhaustedTimeline
    | some (prev, q, rest2) =>
      synthLoop vecF (q, rest2) (dictInsert d t (prev.from_state t (vecF t))) ts

/-- The final list comprehension `[time_state_dict[time] for time in times]`;
a missing key would raise `KeyError`. -/
def lookupAll (d : List (ℚ × TState)) : List ℚ → Option (List TState)
  | [] => some []
  | t :: ts =>
    match dictGet d t with
    | none => none
    | some s => (lookupAll d ts).map (fun l => s :: l)

/-- The sorted list `times_to_interpolate` of the source:
`sorted(set(times).difference(time_state_dict.keys()))`. -/
def timesToInterp (states : List TState) (times2 : List ℚ) : List ℚ :=
  List.insertionSort (· ≤ ·)
    ((times2.dedup).filter (fun t => !decide (t ∈ dictKeys (buildDict states))))

/-- The part of `interpolate_state_mutable_sequence` after range clipping:
batch-interpolate the missing times, synthesize their states through the
predecessor cursor, and look every requested time up in the dict. -/
def interpolateAfterClip (states : List TState) (times2 : List ℚ) :
    Except InterpError (List TState) :=
  let timeStateDict := buildDict states
  let timesToInterpolate := timesToInterp states times2
  let ndim := (states.getLastD default).state_vector.length
  let dictRes : Except InterpError (List (ℚ × TState)) :=
    if timesToInterpolate.isEmpty then .ok timeStateDict
    else
      match pairwise states with
      | [] => .error .exhaustedTimeline
      | p :: ps =>
        synthLoop (interpVector timeStateDict ndim) (p, ps) timeStateDict
          timesToInterpolate
  match dictRes with
  | .error e => .error e
  | .ok d2 => 
    match lookupAll d2 times2 with
    | none => .error .missingKey
    | some outStates => .ok outStates

/-- The body of `interpolate_state_mutable_sequence` acting on the plain list
of states: returns the output state list together with the warned-about set of
removed times (`none` when no warning was emitted). -/
def interpolateCore (states : List TState) (times : List ℚ) :
    Except InterpError (List TState × Option (List ℚ)) :=
  if states.isEmpty then .error .emptySequence
  else if times.isEmpty then .error .emptyTimes
  else
    let clipped : Except InterpError (List ℚ × Option (List ℚ)) :=
      if listMax times > seqMaxTime states ∨ listMin times < seqMinTime states then
        let newTimes := times.filter (inRangeB states)
        if newTimes.isEmpty then .error .allOutsideRange
        else .ok (newTimes, some ((times.filter (fun t => !inRangeB states t)).dedup))
      else .ok (times, none)
    match clipped with
    | .error e => .error e
    | .ok (times2, warning) =>
      match interpolateAfterClip states times2 with
      | .error e => .error e
      | .ok outStates => .ok (outStates, warning)

/-- `interpolate_state_mutable_sequence` (list-of-times form): shallow-copy the
sequence, clear the `metadatas` side-list when the attribute is present, and
replace the states list with the interpolated one.  The second component of
the result is the warned-about set of removed times. -/
def interpolate_state_mutable_sequence (sms : SMS) (times : List ℚ) :
    Except InterpError (SMS × Option (List ℚ)) :=
  match interpolateCore sms.states times with
  | .error e => .error e
  | .ok (outStates, warning) =>
    .ok ({ states := outStates, metadatas := sms.metadatas.map (fun _ => ([] : List ℕ)) },
         warning)

/-- `time_range` from the source, on integer datetimes: the duration divided by
the timestep is truncated toward zero by `int(...)` (`Int.tdiv`; the division
itself is exact in this model) and the generator yields
`start_time + x * timestep` for `x in range(int(n_time_steps) + 1)`. -/
def time_range (start_time end_time : ℤ) (timestep : ℤ) : List ℤ :=
  let duration := end_time - start_time
  let n_time_steps := Int.tdiv duration timestep
  (List.range (n_time_steps + 1).toNat).map (fun x : ℕ => start_time + (x : ℤ) * timestep)

/-- `time_range` with its default timestep of one time unit
(`datetime.timedelta(seconds=1)`). -/
def time_range_default (start_time end_time : ℤ) : List ℤ :=
  time_range start_time end_time 1

/-- Repeated calls of the `_get_previous_state` closure: process the query
times in order, threading the cursor, collecting the returned previous
states; an exhausted pair iterator raises (`StopIteration`). -/
def runCursor : (TState × TState) × List (TState × TState) → List ℚ →
    Except Unit (List TState)
  | _, [] => .ok []
  | (p, rest), t :: ts =>
    match advanceCursor t p rest with
    | none => .error ()
    | some (prev, q, rest2) => (runCursor (q, rest2) ts).map (fun l => prev :: l)

/-- Cost-instrumented `advanceCursor`: additionally counts the number of
`next(state_iter)` advancement steps taken. -/
def advanceCursorC (t : ℚ) (cur : TState × TState) (rest : List (TState × TState)) :
    ℕ × Option (TState × (TState × TState) × List (TState × TState)) :=
  if cur.2.timestamp < t then
    match rest with
    | [] => (1, none)
    | p :: rs =>
      let r := advanceCursorC t p rs
      (r.1 + 1, r.2)
  else (0, some (cur.1, cur, rest))

/-- Total number of cursor advancement steps across one sequence of calls of
the `_get_previous_state` closure. -/
def runCursorC : (TState × TState) × List (TState × TState) → List ℚ → ℕ
  | _, [] => 0
  | (p, rest), t :: ts =>
    match advanceCursorC t p rest with
    | (c, none) => c
    | (c, some (_, q, rest2)) => c + runCursorC (q, rest2) ts

/-- A heap of allocated Python list objects: states lists and metadatas lists,
addressed by allocation index. -/
structure Heap where
  stStore : List (List TState)
  mdStore : List (List ℕ)
deriving DecidableEq

/-- A `StateMutableSequence` object as a pair of references into the heap;
`metadatasRef = none` models an object without the `metadatas` attribute. -/
structure SeqObj where
  statesRef : ℕ
  metadatasRef : Option ℕ
deriving DecidableEq

/-- Allocate a fresh states list. -/
def Heap.allocStates (h : Heap) (v : List TState) : Heap × ℕ :=
  (⟨h.stStore ++ [v], h.mdStore⟩, h.stStore.length)

/-- Allocate a fresh metadatas list. -/
def Heap.allocMeta (h : Heap) (v : List ℕ) : Heap × ℕ :=
  (⟨h.stStore, h.mdStore ++ [v]⟩, h.mdStore.length)

/-- Heap-level rendering of `interpolate_state_mutable_sequence`: `copy.copy`
produces a new object sharing both list references; the copy's `metadatas`
attribute (when present) and its `states` attribute are then rebound to
freshly allocated lists; nothing ever writes through the input object's
references. -/
def interpolateHeap (h : Heap) (o : SeqObj) (times : List ℚ) :
    Heap × Except InterpError SeqObj :=
  let states := h.stStore.getD o.statesRef []
  let copy0 : SeqObj := o
  let step1 : Heap × SeqObj :=
    match o.metadatasRef with
    | some _ =>
      let p := h.allocMeta []
      (p.1, { copy0 with metadatasRef := some p.2 })
    | none => (h, copy0)
  match interpolateCore states times with
  | .error e => (step1.1, .error e)
  | .ok (outStates, _) =>
    let p2 := step1.1.allocStates outStates
    (p2.1, .ok { step1.2 with statesRef := p2.2 })

/-- Ordering of states by timestamp. -/
def tsle (s1 s2 : TState) : Prop := s1.timestamp ≤ s2.timestamp

instance : DecidableRel tsle := fun s1 s2 =>
  inferInstanceAs (Decidable (s1.timestamp ≤ s2.timestamp))

/-! ### Generic list helpers -/

theorem getD_append_lt {α : Type} : ∀ (l l2 : List α) (d : α) (n : ℕ),
    n < l.length → (l ++ l2).getD n d = l.getD n d := by
  intro l
  induction l with
  | nil => intro l2 d n h; simp at h
  | cons a l ih =>
    intro l2 d n h
    cases n with
    | zero => simp
    | succ m =>
      simp only [List.cons_append, List.getD_cons_succ]
      exact ih l2 d m (by simpa using h)

theorem getD_append_len {α : Type} : ∀ (l : List α) (x d : α),
    (l ++ [x]).getD l.length d = x := by
  intro l
  induction l with
  | nil => intro x d; simp
  | cons a l ih =>
    intro x d
    simp only [List.cons_append, List.length_cons, List.getD_cons_succ]
    exact ih x d

/-! ### Cost model of the predecessor cursor -/

theorem advanceCursorC_sound : ∀ (rest : List (TState × TState)) (p : TState × TState) (t : ℚ),
    (advanceCursorC t p rest).2 = advanceCursor t p rest := by
  intro rest
  induction rest with
  | nil =>
    intro p t
    by_cases h : p.2.timestamp < t <;> simp [advanceCursorC, advanceCursor, h]
  | cons q rs ih =>
    intro p t
    by_cases h : p.2.timestamp < t <;> simp [advanceCursorC, advanceCursor, h, ih]

theorem advanceCursorC_cost : ∀ (rest : List (TState × TState)) (p : TState × TState) (t : ℚ),
    ((advanceCursorC t p rest).2 = none → (advanceCursorC t p rest).1 ≤ rest.length + 1) ∧
    (∀ pr q rest2, (advanceCursorC t p rest).2 = some (pr, q, rest2) →
      (advanceCursorC t p rest).1 + rest2.length = rest.length) := by
  intro rest
  induction rest with
  | nil =>
    intro p t
    by_cases h : p.2.timestamp < t <;>
      simp [advanceCursorC, h]
  | cons q rs ih =>
    intro p t
    by_cases h : p.2.timestamp < t
    · have hq := ih q t
      constructor
      · intro hn
        simp only [advanceCursorC, h, if_true, List.length_cons] at hn ⊢
        have h1 := hq.1 hn
        omega
      · intro pr q2 rest2 hs
        simp only [advanceCursorC, h, if_true, List.length_cons] at hs ⊢
        have h2 := hq.2 pr q2 rest2 hs
        omega
    · constructor
      · intro hn; simp [advanceCursorC, h] at hn
      · intro pr q2 rest2 hs
        simp only [advanceCursorC, h, if_false] at hs
        simp only [Option.some.injEq, Prod.mk.injEq] at hs
        obtain ⟨h1, h2, h3⟩ := hs
        subst h3
        simp [advanceCursorC, h]

theorem runCursorC_le : ∀ (qs : List ℚ) (p : TState × TState) (rest : List (TState × TState)),
    runCursorC (p, rest) qs ≤ rest.length + 1 := by
  intro qs
  induction qs with
  | nil => intro p rest; simp [runCursorC]
  | cons t ts ih =>
    intro p rest
    rcases h : advanceCursorC t p rest with ⟨c, o⟩
    rcases o with _ | ⟨pr, q, rest2⟩
    · have h1 := (advanceCursorC_cost rest p t).1
      rw [h] at h1
      simp only [runCursorC, h]
      simpa using h1 rfl
    · have h2 := (advanceCursorC_cost rest p t).2 pr q rest2
      rw [h] at h2
      simp only [runCursorC, h]
      have h3 := ih q rest2
      have h4 : c + rest2.length = rest.length := by simpa using h2 rfl
      omega

/-- C10: one invocation's predecessor-cursor work is linear, never quadratic:
the cost-instrumented cursor computes exactly the source cursor's answers, and
across all calls of one invocation the total number of advancement steps is at
most `N - 1` for a timeline of `N` states (hence amortized `O(1)` per call and
`O(N + M)` overall for `M` lookups). -/
theorem spec_C10_cursor_total_linear :
    (∀ (t : ℚ) (p : TState × TState) (rest : List (TState × TState)),
      (advanceCursorC t p rest).2 = advanceCursor t p rest) ∧
    (∀ (a b : TState) (l : List TState) (qs : List ℚ),
      runCursorC ((a, b), pairwise (b :: l)) qs ≤ (a :: b :: l).length - 1) := by
  constructor
  · intro t p rest
    exact advanceCursorC_sound rest p t
  · intro a b l qs
    have h := runCursorC_le qs (a, b) (pairwise (b :: l))
    have hlen : (pairwise (b :: l)).length = l.length := by
      simp [pairwise]
    simp only [List.length_cons]
    omega

/-- C9 (counterexample): `time_range` truncates the step count toward zero
instead of flooring it, so for `end < start` (here `start = 0`, `end = -2`,
`step = 3`) the code yields `[0]` while the claimed formula
`start + k*step for k = 0 .. floor((end-start)/step)` yields the empty list,
and the produced value `0` overshoots `end = -2`. -/
theorem spec_C9_counterexample :
    time_range 0 (-2) 3 = [0] ∧
      (List.range ((((-2 : ℤ) - 0).fdiv 3 + 1).toNat)).map (fun k : ℕ => (0 : ℤ) + (k : ℤ) * 3) =
        ([] : List ℤ) ∧
      ¬ (∀ x ∈ time_range 0 (-2) 3, x ≤ (-2 : ℤ)) :=
  ⟨by decide, by decide, by decide⟩

/-- C9 (amended): for `start ≤ end` and positive `step`, `time_range` yields
exactly `start + k*step` for `k = 0 .. floor((end-start)/step)` inclusive, in
increasing order, never overshooting `end`; the default timestep is one time
unit. -/
theorem spec_C9_time_range (s e d : ℤ) (hd : 0 < d) (hse : s ≤ e) :
    ∃ n : ℕ, time_range s e d = (List.range (n + 1)).map (fun k : ℕ => s + (k : ℤ) * d) ∧
      s + (n : ℤ) * d ≤ e ∧ e < s + ((n : ℤ) + 1) * d ∧
      List.Sorted (· < ·) (time_range s e d) ∧
      time_range_default s e = time_range s e 1 := by
  have hdn : (0 : ℤ) ≤ e - s := by omega
  have htd : (e - s).tdiv d = (e - s) / d := Int.tdiv_eq_ediv hdn (le_of_lt hd)
  have hq0 : 0 ≤ (e - s) / d := Int.ediv_nonneg hdn (le_of_lt hd)
  have h1 := Int.ediv_add_emod (e - s) d
  have h2 := Int.emod_nonneg (e - s) (by omega : d ≠ 0)
  have h3 := Int.emod_lt_of_pos (e - s) hd
  refine ⟨((e - s) / d).toNat, ?_, ?_, ?_, ?_, rfl⟩
  · have hn : ((e - s).tdiv d + 1).toNat = ((e - s) / d).toNat + 1 := by
      rw [htd]; omega
    simp only [time_range, hn]
  · rw [Int.toNat_of_nonneg hq0]
    have hc : ((e - s) / d) * d = d * ((e - s) / d) := mul_comm _ _
    linarith
  · rw [Int.toNat_of_nonneg hq0]
    have hc : ((e - s) / d + 1) * d = d * ((e - s) / d) + d := by ring
    linarith
  · simp only [time_range]
    exact List.Pairwise.map (fun x : ℕ => s + (x : ℤ) * d)
      (fun a b hab =>
        add_lt_add_left (mul_lt_mul_of_pos_right (show (a : ℤ) < b by exact_mod_cast hab) hd) s)
      (List.pairwise_lt_range _)

/-- Witness for C9 (amended) at `start = 0`, `end = 10`, `step = 3`. -/
theorem spec_C9_time_range_witness :
    (0 : ℤ) < 3 ∧ (0 : ℤ) ≤ 10 ∧
    (∃ n : ℕ, time_range 0 10 3 = (List.range (n + 1)).map (fun k : ℕ => (0 : ℤ) + (k : ℤ) * 3) ∧
      (0 : ℤ) + (n : ℤ) * 3 ≤ 10 ∧ (10 : ℤ) < 0 + ((n : ℤ) + 1) * 3 ∧
      List.Sorted (· < ·) (time_range 0 10 3) ∧
      time_range_default 0 10 = time_range 0 10 1) :=
  ⟨by decide, by decide, spec_C9_time_range 0 10 3 (by decide) (by decide)⟩

/-- C7 (counterexample): for the input sequence with timestamps `[1, 0]` (not
pre-sorted), the deduplicated timestamp dict the engine operates over has its
keys in insertion order `[1, 0]`, which is not ascending. -/
theorem spec_C7_counterexample :
    dictKeys (buildDict [⟨1, [0], 0⟩, ⟨0, [0], 0⟩]) = [1, 0] ∧
      ¬ List.Sorted (· ≤ ·) (dictKeys (buildDict [⟨1, [0], 0⟩, ⟨0, [0], 0⟩])) :=
  ⟨by decide, by decide⟩

/-- C4 (counterexample): query times are not deduplicated for the output: for
a sequence with states at times 0 and 10, querying `[10, 10]` returns a
sequence in which time 10 appears twice, not once. -/
theorem spec_C4_counterexample :
    (interpolate_state_mutable_sequence ⟨[⟨0, [0], 0⟩, ⟨10, [1], 0⟩], none⟩ [10, 10]).map
        (fun r => r.1.states.map (fun st => st.timestamp)) = .ok [10, 10] := by
  rfl

/-- C8: the call never mutates its input: the input object's states list and
(when present) metadatas list are unchanged in the heap after the call, while
a successful call returns a fresh object whose metadatas list (when the
attribute is present) is cleared. -/
theorem spec_C8_no_mutation (h : Heap) (o : SeqObj) (times : List ℚ)
    (hs : o.statesRef < h.stStore.length)
    (hm : ∀ r, o.metadatasRef = some r → r < h.mdStore.length) :
    ((interpolateHeap h o times).1.stStore.getD o.statesRef [] =
        h.stStore.getD o.statesRef []) ∧
    (∀ r, o.metadatasRef = some r →
        (interpolateHeap h o times).1.mdStore.getD r [] = h.mdStore.getD r []) ∧
    (∀ o2, (interpolateHeap h o times).2 = .ok o2 →
        o2.statesRef ≠ o.statesRef ∧
        (o.metadatasRef.isSome → ∃ r2, o2.metadatasRef = some r2 ∧
          (interpolateHeap h o times).1.mdStore.getD r2 [] = [])) := by
  rcases ho : o.metadatasRef with _ | r0
  · rcases hc : interpolateCore (h.stStore.getD o.statesRef []) times with e | ⟨outStates, w⟩
    · have hres : interpolateHeap h o times = (h, .error e) := by
        simp only [interpolateHeap, ho]
        rw [hc]
      refine ⟨by rw [hres], ?_, ?_⟩
      · intro r hr
        exact absurd hr (by simp)
      · intro o2 h2
        rw [hres] at h2
        exact absurd h2 (by simp)
    · have hres : interpolateHeap h o times =
          (⟨h.stStore ++ [outStates], h.mdStore⟩, .ok ⟨h.stStore.length, none⟩) := by
        simp only [interpolateHeap, ho]
        rw [hc]
        rfl
      refine ⟨?_, ?_, ?_⟩
      · rw [hres]
        exact getD_append_lt _ _ _ _ hs
      · intro r hr
        exact absurd hr (by simp)
      · intro o2 h2
        rw [hres] at h2
        obtain rfl : (⟨h.stStore.length, none⟩ : SeqObj) = o2 := by simpa using h2
        refine ⟨by show h.stStore.length ≠ o.statesRef; omega, ?_⟩
        intro hsome
        simp at hsome
  · rcases hc : interpolateCore (h.stStore.getD o.statesRef []) times with e | ⟨outStates, w⟩
    · have hres : interpolateHeap h o times = (⟨h.stStore, h.mdStore ++ [[]]⟩, .error e) := by
        simp only [interpolateHeap, ho]
        rw [hc]
        rfl
      refine ⟨by rw [hres], ?_, ?_⟩
      · intro r hr
        obtain rfl : r0 = r := by simpa using hr
        rw [hres]
        exact getD_append_lt _ _ _ _ (hm r0 ho)
      · intro o2 h2
        rw [hres] at h2
        exact absurd h2 (by simp)
    · have hres : interpolateHeap h o times =
          (⟨h.stStore ++ [outStates], h.mdStore ++ [[]]⟩,
            .ok ⟨h.stStore.length, some h.mdStore.length⟩) := by
        simp only [interpolateHeap, ho]
        rw [hc]
        rfl
      refine ⟨?_, ?_, ?_⟩
      · rw [hres]
        exact getD_append_lt _ _ _ _ hs
      · intro r hr
        obtain rfl : r0 = r := by simpa using hr
        rw [hres]
        exact getD_append_lt _ _ _ _ (hm r0 ho)
      · intro o2 h2
        rw [hres] at h2
        obtain rfl : (⟨h.stStore.length, some h.mdStore.length⟩ : SeqObj) = o2 := by
          simpa using h2
        refine ⟨by show h.stStore.length ≠ o.statesRef; omega, ?_⟩
        intro hsome
        refine ⟨h.mdStore.length, rfl, ?_⟩
        rw [hres]
        exact getD_append_len _ _ _

/-- Witness for C8 on a one-object heap holding a two-state track. -/
theorem spec_C8_no_mutation_witness :
    ((⟨0, some 0⟩ : SeqObj).statesRef <
        (⟨[[⟨0, [0], 0⟩, ⟨10, [1], 0⟩]], [[5]]⟩ : Heap).stStore.length) ∧
    ((interpolateHeap ⟨[[⟨0, [0], 0⟩, ⟨10, [1], 0⟩]], [[5]]⟩ ⟨0, some 0⟩ [5]).1.stStore.getD 0 [] =
      (⟨[[⟨0, [0], 0⟩, ⟨10, [1], 0⟩]], [[5]]⟩ : Heap).stStore.getD 0 []) :=
  ⟨by decide,
    (spec_C8_no_mutation ⟨[[⟨0, [0], 0⟩, ⟨10, [1], 0⟩]], [[5]]⟩ ⟨0, some 0⟩ [5]
      (by decide) (by intro r hr; cases hr; decide)).1⟩

/-! ### Dict lemmas -/

theorem dictKeys_nil : dictKeys [] = [] := rfl

theorem dictKeys_cons (p : ℚ × TState) (d : List (ℚ × TState)) :
    dictKeys (p :: d) = p.1 :: dictKeys d := rfl

theorem dictGet_insert : ∀ (d : List (ℚ × TState)) (k k2 : ℚ) (v : TState),
    dictGet (dictInsert d k v) k2 = if k2 = k then some v else dictGet d k2 := by
  intro d
  induction d with
  | nil =>
    intro k k2 v
    by_cases h : k2 = k
    · subst h; simp [dictInsert, dictGet]
    · have h' : ¬ k = k2 := fun hh => h hh.symm
      simp [dictInsert, dictGet, h, h']
  | cons p d ih =>
    intro k k2 v
    by_cases h1 : p.1 = k
    · simp only [dictInsert, h1, if_true]
      by_cases h2 : k2 = k
      · subst h2; simp [dictGet]
      · have h' : ¬ k = k2 := fun hh => h2 hh.symm
        have h3 : ¬ p.1 = k2 := by rw [h1]; exact h'
        simp [dictGet, h', h3, h2]
    · simp only [dictInsert, h1, if_false]
      by_cases h3 : p.1 = k2
      · have h2 : ¬ k2 = k := fun hh => h1 (by rw [h3, hh])
        simp [dictGet, h3, h2]
      · simp [dictGet, h3, ih]

theorem mem_dictKeys_iff : ∀ (d : List (ℚ × TState)) (k : ℚ),
    k ∈ dictKeys d ↔ (dictGet d k).isSome := by
  intro d
  induction d with
  | nil => intro k; simp [dictKeys_nil, dictGet]
  | cons p d ih =>
    intro k
    by_cases h : p.1 = k
    · simp [dictKeys_cons, dictGet, h]
    · have h' : ¬ k = p.1 := fun hh => h hh.symm
      simp [dictKeys_cons, dictGet, h, h', ih]

theorem dictKeys_insert_mem : ∀ (d : List (ℚ × TState)) (k : ℚ) (v : TState),
    k ∈ dictKeys d → dictKeys (dictInsert d k v) = dictKeys d := by
  intro d
  induction d with
  | nil => intro k v h; simp [dictKeys_nil] at h
  | cons p d ih =>
    intro k v h
    by_cases h1 : p.1 = k
    · simp [dictInsert, h1, dictKeys_cons]
    · have h2 : k ∈ dictKeys d := by
        rcases (by simpa [dictKeys_cons] using h : k = p.1 ∨ k ∈ dictKeys d) with hh | hh
        · exact absurd hh.symm h1
        · exact hh
      simp [dictInsert, h1, dictKeys_cons, ih k v h2]

theorem dictKeys_insert_not_mem : ∀ (d : List (ℚ × TState)) (k : ℚ) (v : TState),
    k ∉ dictKeys d → dictKeys (dictInsert d k v) = dictKeys d ++ [k] := by
  intro d
  induction d with
  | nil => intro k v h; simp [dictInsert, dictKeys_cons, dictKeys_nil]
  | cons p d ih =>
    intro k v h
    by_cases h1 : p.1 = k
    · exact absurd (by simp [dictKeys_cons, h1.symm]) h
    · have h2 : k ∉ dictKeys d := fun hh => h (by simp [dictKeys_cons, hh])
      simp [dictInsert, h1, dictKeys_cons, ih k v h2]

theorem getLast?_cons_of_ne_nil {α : Type} (a : α) {l : List α} (h : l ≠ []) :
    (a :: l).getLast? = l.getLast? := by
  cases l with
  | nil => exact absurd rfl h
  | cons b m => exact List.getLast?_cons_cons

theorem foldl_dictInsert_get : ∀ (ss : List TState) (d : List (ℚ × TState)) (k : ℚ),
    dictGet (ss.foldl (fun d s => dictInsert d s.timestamp s) d) k =
      ((ss.filter (fun s => decide (s.timestamp = k))).getLast?).or (dictGet d k) := by
  intro ss
  induction ss with
  | nil => intro d k; simp
  | cons s ss ih =>
    intro d k
    simp only [List.foldl_cons]
    rw [ih]
    by_cases hs : s.timestamp = k
    · rw [List.filter_cons, if_pos (by simp [hs])]
      rcases hf : ss.filter (fun s => decide (s.timestamp = k)) with _ | ⟨x, xs⟩
      · simp [hf, dictGet_insert, hs]
      · rw [getLast?_cons_of_ne_nil s (by rw [hf]; simp)]
        rcases hl : (x :: xs).getLast? with _ | y
        · simp [List.getLast?_isSome] at hl
        · simp [hf, hl]
    · rw [List.filter_cons, if_neg (by simp [hs])]
      rw [dictGet_insert]
      rw [if_neg (fun hh => hs hh.symm)]

theorem buildDict_get (ss : List TState) (k : ℚ) :
    dictGet (buildDict ss) k = (ss.filter (fun s => decide (s.timestamp = k))).getLast? := by
  have h := foldl_dictInsert_get ss [] k
  simp only [buildDict, dictGet] at h ⊢
  rw [h]
  rcases hl : (ss.filter (fun s => decide (s.timestamp = k))).getLast? with _ | y <;> simp

theorem dictInsert_forall (P : ℚ × TState → Prop) :
    ∀ (d : List (ℚ × TState)) (k : ℚ) (v : TState),
    (∀ p ∈ d, P p) → P (k, v) → ∀ p ∈ dictInsert d k v, P p := by
  intro d
  induction d with
  | nil => intro k v hd hkv p hp; simp [dictInsert] at hp; subst hp; exact hkv
  | cons q d ih =>
    intro k v hd hkv p hp
    by_cases h1 : q.1 = k
    · simp only [dictInsert, h1, if_true, List.mem_cons] at hp
      rcases hp with hp | hp
      · subst hp; exact hkv
      · exact hd p (by simp [hp])
    · simp only [dictInsert, h1, if_false, List.mem_cons] at hp
      rcases hp with hp | hp
      · subst hp; exact hd p (by simp)
      · exact ih k v (fun r hr => hd r (by simp [hr])) hkv p hp

theorem buildDict_entry_ts (ss : List TState) : ∀ p ∈ buildDict ss, p.2.timestamp = p.1 := by
  have main : ∀ (ss : List TState) (d : List (ℚ × TState)),
      (∀ p ∈ d, p.2.timestamp = p.1) →
      ∀ p ∈ ss.foldl (fun d s => dictInsert d s.timestamp s) d, p.2.timestamp = p.1 := by
    intro ss
    induction ss with
    | nil => intro d hd; exact hd
    | cons s ss ih =>
      intro d hd
      simp only [List.foldl_cons]
      exact ih _ (dictInsert_forall _ d s.timestamp s hd rfl)
  exact main ss [] (by intro p hp; simp at hp)

theorem mem_buildDict_keys (ss : List TState) (k : ℚ) :
    k ∈ dictKeys (buildDict ss) ↔ ∃ s ∈ ss, s.timestamp = k := by
  rw [mem_dictKeys_iff, buildDict_get]
  rcases hl : (ss.filter (fun s => decide (s.timestamp = k))).getLast? with _ | y
  · rw [hl]
    simp only [Option.isSome_none, Bool.false_eq_true, false_iff]
    rw [List.getLast?_eq_none_iff] at hl
    intro ⟨s, hs, hts⟩
    have : s ∈ ss.filter (fun s => decide (s.timestamp = k)) := by
      simp [List.mem_filter, hs, hts]
    rw [hl] at this
    simp at this
  · rw [hl]
    simp only [Option.isSome_some, true_iff]
    have hy : y ∈ ss.filter (fun s => decide (s.timestamp = k)) := List.mem_of_mem_getLast? hl
    have := List.mem_filter.mp hy
    exact ⟨y, this.1, by simpa using this.2⟩

/-! ### Sorted-sequence lemmas -/

theorem foldl_keys_sorted : ∀ (ss : List TState) (d : List (ℚ × TState)),
    List.Sorted tsle ss →
    List.Sorted (· < ·) (dictKeys d) →
    (∀ k ∈ dictKeys d, ∀ s ∈ ss, k ≤ s.timestamp) →
    List.Sorted (· < ·)
      (dictKeys (ss.foldl (fun d s => dictInsert d s.timestamp s) d)) := by
  intro ss
  induction ss with
  | nil => intro d hss hd hb; exact hd
  | cons s ss ih =>
    intro d hss hd hb
    simp only [List.foldl_cons]
    by_cases hmem : s.timestamp ∈ dictKeys d
    · refine ih _ (hss.of_cons) (by rwa [dictKeys_insert_mem d s.timestamp s hmem]) ?_
      rw [dictKeys_insert_mem d s.timestamp s hmem]
      intro k hk s2 hs2
      exact hb k hk s2 (by simp [hs2])
    · have hkeys := dictKeys_insert_not_mem d s.timestamp s hmem
      refine ih _ (hss.of_cons) ?_ ?_
      · rw [hkeys]
        refine List.pairwise_append.mpr ⟨hd, by simp, ?_⟩
        intro a ha b hbmem
        simp only [List.mem_singleton] at hbmem
        subst hbmem
        have hle := hb a ha s (by simp)
        have hne : a ≠ s.timestamp := fun h => hmem (h ▸ ha)
        exact lt_of_le_of_ne hle hne
      · rw [hkeys]
        intro k hk s2 hs2
        rcases List.mem_append.mp hk with hk | hk
        · exact hb k hk s2 (by simp [hs2])
        · simp only [List.mem_singleton] at hk
          subst hk
          exact List.rel_of_sorted_cons hss s2 hs2
  
theorem buildDict_keys_sorted (ss : List TState) (h : List.Sorted tsle ss) :
    List.Sorted (· < ·) (dictKeys (buildDict ss)) := by
  refine foldl_keys_sorted ss [] h (by simp [dictKeys_nil]) ?_
  intro k hk
  simp [dictKeys_nil] at hk

theorem mem_getLastD {α : Type} [Inhabited α] :
    ∀ (l : List α) (a : α), (a :: l).getLastD default ∈ a :: l := by
  intro l
  induction l with
  | nil => intro a; simp
  | cons b m ih =>
    intro a
    rw [List.getLastD_cons]
    exact List.mem_cons_of_mem a (ih b)

theorem sorted_le_getLastD :
    ∀ (l : List TState) (a : TState), List.Sorted tsle (a :: l) →
      ∀ x ∈ a :: l, x.timestamp ≤ ((a :: l).getLastD default).timestamp := by
  intro l
  induction l with
  | nil =>
    intro a hs x hx
    simp only [List.mem_singleton] at hx
    subst hx
    simp
  | cons b m ih =>
    intro a hs x hx
    rw [List.getLastD_cons]
    rcases List.mem_cons.mp hx with hx | hx
    · subst hx
      have h1 : tsle x b := List.rel_of_sorted_cons hs b (by simp)
      have h2 := ih b (hs.of_cons) b (by simp)
      exact le_trans h1 h2
    · exact ih b (hs.of_cons) x hx

theorem sorted_headD_le (l : List TState) (a : TState) (hs : List.Sorted tsle (a :: l)) :
    ∀ x ∈ a :: l, a.timestamp ≤ x.timestamp := by
  intro x hx
  rcases List.mem_cons.mp hx with hx | hx
  · subst hx; exact le_refl _
  · exact List.rel_of_sorted_cons hs x hx

/-! ### Python max / min -/

theorem foldl_max_le : ∀ (l : List ℚ) (a : ℚ),
    a ≤ l.foldl max a ∧ ∀ t ∈ l, t ≤ l.foldl max a := by
  intro l
  induction l with
  | nil => intro a; simp
  | cons b m ih =>
    intro a
    simp only [List.foldl_cons]
    have h1 := (ih (max a b)).1
    refine ⟨le_trans (le_max_left a b) h1, ?_⟩
    intro t ht
    rcases List.mem_cons.mp ht with ht | ht
    · subst ht; exact le_trans (le_max_right a t) h1
    · exact (ih (max a b)).2 t ht

theorem le_listMax (l : List ℚ) : ∀ t ∈ l, t ≤ listMax l :=
  fun t ht => (foldl_max_le l (l.headD 0)).2 t ht

theorem foldl_max_mem : ∀ (l : List ℚ) (a : ℚ), l.foldl max a = a ∨ l.foldl max a ∈ l := by
  intro l
  induction l with
  | nil => intro a; simp
  | cons b m ih =>
    intro a
    simp only [List.foldl_cons]
    rcases ih (max a b) with h | h
    · rcases max_choice a b with hm | hm
      · exact Or.inl (by rw [h, hm])
      · exact Or.inr (by rw [h, hm]; simp)
    · exact Or.inr (by simp [h])

theorem listMax_mem (l : List ℚ) (h : l ≠ []) : listMax l ∈ l := by
  rcases foldl_max_mem l (l.headD 0) with hm | hm
  · rw [listMax, hm]
    cases l with
    | nil => exact absurd rfl h
    | cons a m => simp
  · exact hm

theorem foldl_min_le : ∀ (l : List ℚ) (a : ℚ),
    l.foldl min a ≤ a ∧ ∀ t ∈ l, l.foldl min a ≤ t := by
  intro l
  induction l with
  | nil => intro a; simp
  | cons b m ih =>
    intro a
    simp only [List.foldl_cons]
    have h1 := (ih (min a b)).1
    refine ⟨le_trans h1 (min_le_left a b), ?_⟩
    intro t ht
    rcases List.mem_cons.mp ht with ht | ht
    · subst ht; exact le_trans h1 (min_le_right a t)
    · exact (ih (min a b)).2 t ht

theorem listMin_le (l : List ℚ) : ∀ t ∈ l, listMin l ≤ t :=
  fun t ht => (foldl_min_le l (l.headD 0)).2 t ht

theorem foldl_min_mem : ∀ (l : List ℚ) (a : ℚ), l.foldl min a = a ∨ l.foldl min a ∈ l := by
  intro l
  induction l with
  | nil => intro a; simp
  | cons b m ih =>
    intro a
    simp only [List.foldl_cons]
    rcases ih (min a b) with h | h
    · rcases min_choice a b with hm | hm
      · exact Or.inl (by rw [h, hm])
      · exact Or.inr (by rw [h, hm]; simp)
    · exact Or.inr (by simp [h])

theorem listMin_mem (l : List ℚ) (h : l ≠ []) : listMin l ∈ l := by
  rcases foldl_min_mem l (l.headD 0) with hm | hm
  · rw [listMin, hm]
    cases l with
    | nil => exact absurd rfl h
    | cons a m => simp
  · exact hm

/-! ### numpy.interp on an increasing sample list -/

theorem interp1_cons_cons (t a c b d : ℚ) (rest : List (ℚ × ℚ)) :
    interp1 t ((a, b) :: (c, d) :: rest) =
      if t ≤ a then b
      else if t ≤ c then b + (d - b) * (t - a) / (c - a)
      else interp1 t ((c, d) :: rest) := rfl

theorem interp1_interior :
    ∀ (pre : List (ℚ × ℚ)) (x0 y0 x1 y1 : ℚ) (post : List (ℚ × ℚ)) (t : ℚ),
      List.Sorted (· < ·) ((pre ++ (x0, y0) :: (x1, y1) :: post).map Prod.fst) →
      x0 < t → t ≤ x1 →
      interp1 t (pre ++ (x0, y0) :: (x1, y1) :: post) =
        y0 + (y1 - y0) * (t - x0) / (x1 - x0) := by
  intro pre
  induction pre with
  | nil =>
    intro x0 y0 x1 y1 post t hs h0 h1
    rw [List.nil_append, interp1_cons_cons, if_neg (not_le.mpr h0), if_pos h1]
  | cons hd pre ih =>
    rcases hd with ⟨a, b⟩
    intro x0 y0 x1 y1 post t hs h0 h1
    have hs' : List.Sorted (· < ·)
        (a :: (pre ++ (x0, y0) :: (x1, y1) :: post).map Prod.fst) := by
      simpa using hs
    have hs2 := hs'.of_cons
    have hax0 : a < x0 := List.rel_of_sorted_cons hs' x0 (by simp)
    have hat : ¬ t ≤ a := not_le.mpr (lt_trans hax0 h0)
    cases pre with
    | nil =>
      rw [List.cons_append, List.nil_append, interp1_cons_cons, if_neg hat,
        if_neg (not_le.mpr h0)]
      exact ih x0 y0 x1 y1 post t (by simpa using hs2) h0 h1
    | cons c pre2 =>
      rcases c with ⟨c1, c2⟩
      have hc_sorted : List.Sorted (· < ·)
          (c1 :: (pre2 ++ (x0, y0) :: (x1, y1) :: post).map Prod.fst) := by
        simpa using hs2
      have hcx0 : c1 < x0 := List.rel_of_sorted_cons hc_sorted x0 (by simp)
      have hct : ¬ t ≤ c1 := not_le.mpr (lt_trans hcx0 h0)
      rw [List.cons_append, List.cons_append, interp1_cons_cons, if_neg hat, if_neg hct,
        ← List.cons_append]
      exact ih x0 y0 x1 y1 post t (by simpa using hs2) h0 h1

/-! ### Cursor lemmas -/

theorem advanceCursor_none_iff :
    ∀ (rest : List (TState × TState)) (p : TState × TState) (t : ℚ),
      advanceCursor t p rest = none ↔ ∀ q ∈ p :: rest, q.2.timestamp < t := by
  intro rest
  induction rest with
  | nil =>
    intro p t
    by_cases h : p.2.timestamp < t <;> simp [advanceCursor, h]
  | cons r rs ih =>
    intro p t
    by_cases h : p.2.timestamp < t
    · simp only [advanceCursor, h, if_true]
      rw [ih r t]
      constructor
      · intro hall q hq
        rcases List.mem_cons.mp hq with hq | hq
        · subst hq; exact h
        · exact hall q hq
      · intro hall q hq
        exact hall q (by simp [hq])
    · simp only [advanceCursor, h, if_false]
      constructor
      · intro hh; exact absurd hh (by simp)
      · intro hall
        exact absurd (hall p (by simp)) h

theorem advanceCursor_some_spec :
    ∀ (rest : List (TState × TState)) (p : TState × TState) (t : ℚ)
      (b : TState) (q : TState × TState) (rest2 : List (TState × TState)),
      advanceCursor t p rest = some (b, q, rest2) →
      b = q.1 ∧ t ≤ q.2.timestamp ∧
        ∃ dr, p :: rest = dr ++ q :: rest2 ∧ ∀ x ∈ dr, x.2.timestamp < t := by
  intro rest
  induction rest with
  | nil =>
    intro p t b q rest2 hadv
    by_cases h : p.2.timestamp < t
    · simp [advanceCursor, h] at hadv
    · simp only [advanceCursor, h, if_false, Option.some.injEq, Prod.mk.injEq] at hadv
      obtain ⟨hb, hq, hr⟩ := hadv
      subst hb; subst hq; subst hr
      exact ⟨rfl, not_lt.mp h, [], rfl, by simp⟩
  | cons r rs ih =>
    intro p t b q rest2 hadv
    by_cases h : p.2.timestamp < t
    · simp only [advanceCursor, h, if_true] at hadv
      obtain ⟨hb, hle, dr, hsplit, hdr⟩ := ih r t b q rest2 hadv
      refine ⟨hb, hle, p :: dr, by rw [List.cons_append, ← hsplit], ?_⟩
      intro x hx
      rcases List.mem_cons.mp hx with hx | hx
      · subst hx; exact h
      · exact hdr x hx
    · simp only [advanceCursor, h, if_false, Option.some.injEq, Prod.mk.injEq] at hadv
      obtain ⟨hb, hq, hr⟩ := hadv
      subst hb; subst hq; subst hr
      exact ⟨rfl, not_lt.mp h, [], rfl, by simp⟩

theorem advanceCursor_isSome (rest : List (TState × TState)) (p : TState × TState) (t : ℚ)
    (h : ∃ q ∈ p :: rest, t ≤ q.2.timestamp) :
    ∃ b q rest2, advanceCursor t p rest = some (b, q, rest2) := by
  rcases hadv : advanceCursor t p rest with _ | ⟨b, q, rest2⟩
  · rw [advanceCursor_none_iff] at hadv
    obtain ⟨q, hq, hle⟩ := h
    exact absurd (hadv q hq) (not_lt.mpr hle)
  · exact ⟨b, q, rest2, rfl⟩

/-! ### itertools.pairwise lemmas -/

theorem pairwise_cons_cons (a b : TState) (l : List TState) :
    pairwise (a :: b :: l) = (a, b) :: pairwise (b :: l) := rfl

theorem pairwise_exists_last :
    ∀ (l : List TState) (a b : TState),
      ∃ q ∈ pairwise (a :: b :: l), q.2 = (a :: b :: l).getLastD default := by
  intro l
  induction l with
  | nil =>
    intro a b
    refine ⟨(a, b), by simp [pairwise], ?_⟩
    simp [List.getLastD_cons]
  | cons c m ih =>
    intro a b
    obtain ⟨q, hq, hlast⟩ := ih b c
    refine ⟨q, ?_, ?_⟩
    · rw [pairwise_cons_cons]
      exact List.mem_cons_of_mem _ hq
    · rw [List.getLastD_cons]
      exact hlast

theorem dictGet_mem : ∀ (d : List (ℚ × TState)) (k : ℚ) (v : TState),
    dictGet d k = some v → (k, v) ∈ d := by
  intro d
  induction d with
  | nil => intro k v h; simp [dictGet] at h
  | cons p d ih =>
    intro k v h
    by_cases hp : p.1 = k
    · simp only [dictGet, hp, if_true, Option.some.injEq] at h
      subst h
      subst hp
      exact List.mem_cons_self _ _
    · simp only [dictGet, hp, if_false] at h
      exact List.mem_cons_of_mem _ (ih k v h)

theorem lookupAll_spec : ∀ (ts : List ℚ) (d : List (ℚ × TState)),
    (∀ t ∈ ts, ∃ s, dictGet d t = some s ∧ s.timestamp = t) →
    ∃ outs, lookupAll d ts = some outs ∧ outs.map (fun s => s.timestamp) = ts := by
  intro ts
  induction ts with
  | nil => intro d hall; exact ⟨[], rfl, rfl⟩
  | cons t ts ih =>
    intro d hall
    obtain ⟨s, hget, hts⟩ := hall t (by simp)
    obtain ⟨outs, hl, hmap⟩ := ih d (fun t2 ht2 => hall t2 (by simp [ht2]))
    refine ⟨s :: outs, ?_, by simp [hmap, hts]⟩
    simp only [lookupAll, hget, hl]
    rfl

theorem synthLoop_spec :
    ∀ (ts : List ℚ) (p : TState × TState) (rest : List (TState × TState))
      (d : List (ℚ × TState)) (vecF : ℚ → List ℚ),
      List.Sorted (· < ·) ts →
      (∀ t ∈ ts, ∃ q ∈ p :: rest, t ≤ q.2.timestamp) →
      ∃ d2, synthLoop vecF (p, rest) d ts = .ok d2 ∧
        (∀ k, k ∉ ts → dictGet d2 k = dictGet d k) ∧
        (∀ k ∈ ts, ∃ pr : TState, dictGet d2 k = some (pr.from_state k (vecF k))) := by
  intro ts
  induction ts with
  | nil =>
    intro p rest d vecF hs hex
    exact ⟨d, rfl, fun k _ => rfl, by simp⟩
  | cons t ts ih =>
    intro p rest d vecF hs hex
    obtain ⟨b, q, rest2, hadv⟩ := advanceCursor_isSome rest p t (hex t (by simp))
    obtain ⟨hb, hle, dr, hsplit, hdr⟩ := advanceCursor_some_spec rest p t b q rest2 hadv
    have hex2 : ∀ t2 ∈ ts, ∃ q2 ∈ q :: rest2, t2 ≤ q2.2.timestamp := by
      intro t2 ht2
      obtain ⟨q2, hq2, hle2⟩ := hex t2 (by simp [ht2])
      have htt2 : t < t2 := List.rel_of_sorted_cons hs t2 ht2
      rw [hsplit] at hq2
      rcases List.mem_append.mp hq2 with hq2 | hq2
      · have : q2.2.timestamp < q2.2.timestamp :=
          lt_of_lt_of_le (lt_trans (hdr q2 hq2) htt2) hle2
        exact absurd this (lt_irrefl _)
      · exact ⟨q2, hq2, hle2⟩
    obtain ⟨d2, hrun, hpres, hmem⟩ :=
      ih q rest2 (dictInsert d t (b.from_state t (vecF t))) vecF hs.of_cons hex2
    refine ⟨d2, ?_, ?_, ?_⟩
    · simp only [synthLoop, hadv]
      exact hrun
    · intro k hk
      have hkt : ¬ k = t := fun h => hk (by simp [h])
      have hkts : k ∉ ts := fun h => hk (by simp [h])
      rw [hpres k hkts, dictGet_insert, if_neg hkt]
    · intro k hk
      rcases List.mem_cons.mp hk with hk | hk
      · subst hk
        have hknotts : k ∉ ts := by
          intro hmem2
          exact absurd (List.rel_of_sorted_cons hs k hmem2) (lt_irrefl k)
        rw [hpres k hknotts, dictGet_insert, if_pos rfl]
        exact ⟨b, rfl⟩
      · exact hmem k hk

theorem timesToInterp_perm (states : List TState) (times2 : List ℚ) :
    (timesToInterp states times2).Perm
      ((times2.dedup).filter (fun t => !decide (t ∈ dictKeys (buildDict states)))) :=
  List.perm_insertionSort _ _

theorem timesToInterp_nodup (states : List TState) (times2 : List ℚ) :
    (timesToInterp states times2).Nodup :=
  ((timesToInterp_perm states times2).symm).nodup ((List.nodup_dedup times2).filter _)

theorem timesToInterp_sorted (states : List TState) (times2 : List ℚ) :
    List.Sorted (· < ·) (timesToInterp states times2) :=
  List.Sorted.lt_of_le (List.sorted_insertionSort _ _) (timesToInterp_nodup states times2)

theorem mem_timesToInterp (states : List TState) (times2 : List ℚ) (x : ℚ) :
    x ∈ timesToInterp states times2 ↔
      x ∈ times2 ∧ x ∉ dictKeys (buildDict states) := by
  rw [(timesToInterp_perm states times2).mem_iff]
  simp [List.mem_filter, List.mem_dedup]

theorem afterClip_ok (a : TState) (l : List TState) (times2 : List ℚ)
    (hsort : List.Sorted tsle (a :: l))
    (hall : ∀ t ∈ times2, seqMinTime (a :: l) ≤ t ∧ t ≤ seqMaxTime (a :: l)) :
    ∃ outStates, interpolateAfterClip (a :: l) times2 = .ok outStates ∧
      outStates.map (fun s => s.timestamp) = times2 := by
  by_cases htti : (timesToInterp (a :: l) times2).isEmpty
  · have htti_nil : timesToInterp (a :: l) times2 = [] := by
      cases h : timesToInterp (a :: l) times2 with
      | nil => rfl
      | cons x xs => rw [h] at htti; simp at htti
    have hlook : ∀ t ∈ times2,
        ∃ s, dictGet (buildDict (a :: l)) t = some s ∧ s.timestamp = t := by
      intro t ht
      have hmem : t ∈ dictKeys (buildDict (a :: l)) := by
        by_contra hnk
        have hx : t ∈ timesToInterp (a :: l) times2 :=
          (mem_timesToInterp _ _ _).mpr ⟨ht, hnk⟩
        rw [htti_nil] at hx
        simp at hx
      rw [mem_dictKeys_iff] at hmem
      rcases hget : dictGet (buildDict (a :: l)) t with _ | s
      · rw [hget] at hmem; simp at hmem
      · exact ⟨s, rfl, buildDict_entry_ts _ (t, s) (dictGet_mem _ t s hget)⟩
    obtain ⟨outs, hl, hmap⟩ := lookupAll_spec times2 (buildDict (a :: l)) hlook
    refine ⟨outs, ?_, hmap⟩
    simp only [interpolateAfterClip, htti, if_true, hl]
  · have hf : (timesToInterp (a :: l) times2).isEmpty = false := by
      rwa [Bool.not_eq_true] at htti
    cases l with
    | nil =>
      exfalso
      rcases hc : timesToInterp [a] times2 with _ | ⟨t0, ttirest⟩
      · rw [hc] at hf; simp at hf
      · have ht0 : t0 ∈ timesToInterp [a] times2 := by rw [hc]; simp
        obtain ⟨ht0mem, ht0nk⟩ := (mem_timesToInterp _ _ _).mp ht0
        obtain ⟨hmin, hmax⟩ := hall t0 ht0mem
        have heq : t0 = a.timestamp := by
          simp only [seqMinTime, seqMaxTime, List.headD_cons] at hmin hmax
          have : (([a] : List TState).getLastD default) = a := by simp
          rw [this] at hmax
          exact le_antisymm hmax hmin
        exact ht0nk ((mem_buildDict_keys _ _).mpr ⟨a, by simp, heq.symm⟩)
    | cons b l2 =>
      obtain ⟨q, hq, hlast⟩ := pairwise_exists_last l2 a b
      rw [pairwise_cons_cons] at hq
      have hex : ∀ t ∈ timesToInterp (a :: b :: l2) times2,
          ∃ q2 ∈ (a, b) :: pairwise (b :: l2), t ≤ q2.2.timestamp := by
        intro t ht
        obtain ⟨htmem, _⟩ := (mem_timesToInterp _ _ _).mp ht
        refine ⟨q, hq, ?_⟩
        rw [hlast]
        exact (hall t htmem).2
      obtain ⟨d2, hrun, hpres, hmem⟩ :=
        synthLoop_spec (timesToInterp (a :: b :: l2) times2) (a, b) (pairwise (b :: l2))
          (buildDict (a :: b :: l2))
          (interpVector (buildDict (a :: b :: l2))
            (((a :: b :: l2).getLastD default).state_vector.length))
          (timesToInterp_sorted _ _) hex
      have hlook : ∀ t ∈ times2, ∃ s, dictGet d2 t = some s ∧ s.timestamp = t := by
        intro t ht
        by_cases hk : t ∈ dictKeys (buildDict (a :: b :: l2))
        · have hnot : t ∉ timesToInterp (a :: b :: l2) times2 := by
            intro hx
            exact ((mem_timesToInterp _ _ _).mp hx).2 hk
          rw [mem_dictKeys_iff] at hk
          rcases hget : dictGet (buildDict (a :: b :: l2)) t with _ | s
          · rw [hget] at hk; simp at hk
          · refine ⟨s, ?_, buildDict_entry_ts _ (t, s) (dictGet_mem _ t s hget)⟩
            rw [hpres t hnot, hget]
        · have hx : t ∈ timesToInterp (a :: b :: l2) times2 :=
            (mem_timesToInterp _ _ _).mpr ⟨ht, hk⟩
          obtain ⟨pr, hget⟩ := hmem t hx
          exact ⟨pr.from_state t _, hget, rfl⟩
      obtain ⟨outs, hl2, hmap⟩ := lookupAll_spec times2 d2 hlook
      refine ⟨outs, ?_, hmap⟩
      simp only [interpolateAfterClip, hf, Bool.false_eq_true, if_false, pairwise_cons_cons,
        hrun, hl2]

theorem interpolateCore_ok (a : TState) (l : List TState) (times : List ℚ)
    (hsort : List.Sorted tsle (a :: l))
    (hne : times ≠ [])
    (hin : ∃ t ∈ times, inRangeB (a :: l) t = true) :
    ∃ outStates warning,
      interpolateCore (a :: l) times = .ok (outStates, warning) ∧
      outStates.map (fun s => s.timestamp) = times.filter (inRangeB (a :: l)) ∧
      ((∀ t ∈ times, inRangeB (a :: l) t = true) → warning = none) ∧
      ((∃ t ∈ times, inRangeB (a :: l) t = false) →
        warning = some ((times.filter (fun t => !inRangeB (a :: l) t)).dedup)) := by
  have htE : times.isEmpty = false := by
    cases times with
    | nil => exact absurd rfl hne
    | cons x xs => rfl
  have hcond_iff : (listMax times > seqMaxTime (a :: l) ∨ listMin times < seqMinTime (a :: l))
      ↔ ∃ t ∈ times, inRangeB (a :: l) t = false := by
    constructor
    · intro h
      rcases h with h | h
      · refine ⟨listMax times, listMax_mem times hne, ?_⟩
        simp only [inRangeB, decide_eq_false_iff_not]
        exact fun hh => absurd h (not_lt.mpr hh.2)
      · refine ⟨listMin times, listMin_mem times hne, ?_⟩
        simp only [inRangeB, decide_eq_false_iff_not]
        exact fun hh => absurd h (not_lt.mpr hh.1)
    · intro ⟨t, ht, hout⟩
      simp only [inRangeB, decide_eq_false_iff_not] at hout
      rcases not_and_or.mp hout with h | h
      · right
        exact lt_of_le_of_lt (listMin_le times t ht) (not_le.mp h)
      · left
        exact lt_of_lt_of_le (not_le.mp h) (le_listMax times t ht)
  by_cases hcond : (listMax times > seqMaxTime (a :: l) ∨ listMin times < seqMinTime (a :: l))
  · obtain ⟨tw, htw, htwout⟩ := hcond_iff.mp hcond
    have hfE : (times.filter (inRangeB (a :: l))).isEmpty = false := by
      obtain ⟨t, ht, htin⟩ := hin
      cases hc : times.filter (inRangeB (a :: l)) with
      | nil =>
        have hmem : t ∈ times.filter (inRangeB (a :: l)) := List.mem_filter.mpr ⟨ht, htin⟩
        rw [hc] at hmem
        simp at hmem
      | cons x xs => rfl
    have hallf : ∀ t ∈ times.filter (inRangeB (a :: l)),
        seqMinTime (a :: l) ≤ t ∧ t ≤ seqMaxTime (a :: l) := by
      intro t ht
      have := (List.mem_filter.mp ht).2
      simpa [inRangeB] using this
    obtain ⟨outs, hac, hmap⟩ := afterClip_ok a l (times.filter (inRangeB (a :: l))) hsort hallf
    refine ⟨outs, some ((times.filter (fun t => !inRangeB (a :: l) t)).dedup), ?_, hmap, ?_, ?_⟩
    · simp only [interpolateCore, List.isEmpty_cons, Bool.false_eq_true, if_false, htE]
      rw [if_pos hcond]
      simp only [hfE, Bool.false_eq_true, if_false, hac]
    · intro hallt
      rw [hallt tw htw] at htwout
      simp at htwout
    · intro _
      rfl
  · have hallin : ∀ t ∈ times, inRangeB (a :: l) t = true := by
      by_contra hnot
      push_neg at hnot
      obtain ⟨t, ht, htne⟩ := hnot
      refine hcond (hcond_iff.mpr ⟨t, ht, ?_⟩)
      cases hb : inRangeB (a :: l) t with
      | false => rfl
      | true => exact absurd hb htne
    have hfilter_eq : times.filter (inRangeB (a :: l)) = times := List.filter_eq_self.mpr hallin
    obtain ⟨outs, hac, hmap⟩ :=
      afterClip_ok a l times hsort (fun t ht => by simpa [inRangeB] using hallin t ht)
    refine ⟨outs, none, ?_, by rw [hmap, hfilter_eq], fun _ => rfl, ?_⟩
    · simp only [interpolateCore, List.isEmpty_cons, Bool.false_eq_true, if_false, htE]
      rw [if_neg hcond]
      simp only [hac]
    · intro ⟨t, ht, hf⟩
      rw [hallin t ht] at hf
      simp at hf

/-- C7 (amended): the timeline dict keeps Python dict insertion order, so it is
sorted ascending whenever the input sequence is sorted by timestamp (the
implicit sequence invariant); duplicates always resolve to the
later-occurring state in original order. -/
theorem spec_C7_sorted_timeline (ss : List TState) (hsort : List.Sorted tsle ss) :
    List.Sorted (· < ·) (dictKeys (buildDict ss)) ∧
    ∀ k, dictGet (buildDict ss) k =
      (ss.filter (fun s => decide (s.timestamp = k))).getLast? :=
  ⟨buildDict_keys_sorted ss hsort, fun k => buildDict_get ss k⟩

/-- Witness for C7 (amended) on a sorted three-state sequence with a duplicate
timestamp. -/
theorem spec_C7_sorted_timeline_witness :
    List.Sorted tsle [⟨0, [0], 1⟩, ⟨0, [5], 2⟩, ⟨10, [10], 3⟩] ∧
    (List.Sorted (· < ·)
        (dictKeys (buildDict [⟨0, [0], 1⟩, ⟨0, [5], 2⟩, ⟨10, [10], 3⟩])) ∧
      ∀ k, dictGet (buildDict [⟨0, [0], 1⟩, ⟨0, [5], 2⟩, ⟨10, [10], 3⟩]) k =
        (([⟨0, [0], 1⟩, ⟨0, [5], 2⟩, ⟨10, [10], 3⟩] : List TState).filter
          (fun s => decide (s.timestamp = k))).getLast?) :=
  ⟨by decide, spec_C7_sorted_timeline _ (by decide)⟩

/-- C2: for a query time `t` already present among the (sorted) sequence's
timestamps, the call returns exactly the stored state at `t` (the later one in
original order when several states share `t`), with no interpolation. -/
theorem spec_C2_exact_passthrough (a : TState) (l : List TState) (md : Option (List ℕ))
    (t : ℚ) (s : TState)
    (hsort : List.Sorted tsle (a :: l))
    (hlast : ((a :: l).filter (fun s2 => decide (s2.timestamp = t))).getLast? = some s) :
    interpolate_state_mutable_sequence ⟨a :: l, md⟩ [t] =
      .ok (⟨[s], md.map fun _ => []⟩, none) := by
  have hsmem : s ∈ (a :: l).filter (fun s2 => decide (s2.timestamp = t)) :=
    List.mem_of_mem_getLast? hlast
  have hsmem2 := List.mem_filter.mp hsmem
  have hsts : s.timestamp = t := by simpa using hsmem2.2
  have htmin : seqMinTime (a :: l) ≤ t := by
    have := sorted_headD_le l a hsort s hsmem2.1
    rw [hsts] at this
    simpa [seqMinTime] using this
  have htmax : t ≤ seqMaxTime (a :: l) := by
    have := sorted_le_getLastD l a hsort s hsmem2.1
    rw [hsts] at this
    exact this
  have hget : dictGet (buildDict (a :: l)) t = some s := by
    rw [buildDict_get]
    exact hlast
  have hkey : t ∈ dictKeys (buildDict (a :: l)) := by
    rw [mem_dictKeys_iff, hget]
    rfl
  have hmax1 : listMax [t] = t := by simp [listMax]
  have hmin1 : listMin [t] = t := by simp [listMin]
  have hcond : ¬ (listMax [t] > seqMaxTime (a :: l) ∨ listMin [t] < seqMinTime (a :: l)) := by
    rw [hmax1, hmin1]
    push_neg
    exact ⟨htmax, htmin⟩
  have htti : timesToInterp (a :: l) [t] = [] := by
    simp [timesToInterp, hkey]
  have hac : interpolateAfterClip (a :: l) [t] = .ok [s] := by
    simp only [interpolateAfterClip, htti, List.isEmpty_nil, if_true]
    simp [lookupAll, hget]
  have hcore : interpolateCore (a :: l) [t] = .ok ([s], none) := by
    simp only [interpolateCore, List.isEmpty_cons, Bool.false_eq_true, if_false,
      List.isEmpty_cons]
    rw [if_neg hcond]
    simp [hac]
  simp [interpolate_state_mutable_sequence, hcore]

/-- Witness for C2: duplicate timestamp 0; the later state (vector `[5]`,
attrs 2) is returned. -/
theorem spec_C2_exact_passthrough_witness :
    List.Sorted tsle [⟨0, [0], 1⟩, ⟨0, [5], 2⟩, ⟨10, [10], 3⟩] ∧
    (([⟨0, [0], 1⟩, ⟨0, [5], 2⟩, ⟨10, [10], 3⟩] : List TState).filter
        (fun s2 => decide (s2.timestamp = 0))).getLast? = some ⟨0, [5], 2⟩ ∧
    interpolate_state_mutable_sequence ⟨[⟨0, [0], 1⟩, ⟨0, [5], 2⟩, ⟨10, [10], 3⟩], some [7]⟩
        [0] = .ok (⟨[⟨0, [5], 2⟩], some []⟩, none) :=
  ⟨by decide, by decide,
    spec_C2_exact_passthrough ⟨0, [0], 1⟩ [⟨0, [5], 2⟩, ⟨10, [10], 3⟩] (some [7]) 0
      ⟨0, [5], 2⟩ (by decide) (by decide)⟩

/-- C3: for a nonempty sorted sequence, if every requested time is outside
`[min_t, max_t]` the call fails with the range error and produces no output;
if some but not all are outside, the call succeeds, the warning names exactly
the out-of-range times, and only the in-range times are processed. -/
theorem spec_C3_range_clipping (a : TState) (l : List TState) (md : Option (List ℕ))
    (times : List ℚ)
    (hsort : List.Sorted tsle (a :: l))
    (hne : times ≠ []) :
    ((∀ t ∈ times, ¬ (seqMinTime (a :: l) ≤ t ∧ t ≤ seqMaxTime (a :: l))) →
      interpolate_state_mutable_sequence ⟨a :: l, md⟩ times = .error .allOutsideRange) ∧
    ((∃ t ∈ times, seqMinTime (a :: l) ≤ t ∧ t ≤ seqMaxTime (a :: l)) →
     (∃ t ∈ times, ¬ (seqMinTime (a :: l) ≤ t ∧ t ≤ seqMaxTime (a :: l))) →
      ∃ outSms w,
        interpolate_state_mutable_sequence ⟨a :: l, md⟩ times = .ok (outSms, some w) ∧
        (∀ t, t ∈ w ↔ t ∈ times ∧ ¬ (seqMinTime (a :: l) ≤ t ∧ t ≤ seqMaxTime (a :: l))) ∧
        outSms.states.map (fun s => s.timestamp) = times.filter (inRangeB (a :: l))) := by
  have htE : times.isEmpty = false := by
    cases times with
    | nil => exact absurd rfl hne
    | cons x xs => rfl
  constructor
  · intro hallout
    have hcond : listMax times > seqMaxTime (a :: l) ∨ listMin times < seqMinTime (a :: l) := by
      cases times with
      | nil => exact absurd rfl hne
      | cons x xs =>
        rcases not_and_or.mp (hallout x (by simp)) with h | h
        · right
          exact lt_of_le_of_lt (listMin_le _ x (by simp)) (not_le.mp h)
        · left
          exact lt_of_lt_of_le (not_le.mp h) (le_listMax _ x (by simp))
    have hfilter_nil : times.filter (inRangeB (a :: l)) = [] := by
      rw [List.filter_eq_nil_iff]
      intro t ht
      simp only [inRangeB, decide_eq_true_eq]
      exact hallout t ht
    have hcoreE : interpolateCore (a :: l) times = .error .allOutsideRange := by
      simp only [interpolateCore, List.isEmpty_cons, Bool.false_eq_true, if_false, htE]
      rw [if_pos hcond]
      simp [hfilter_nil]
    simp [interpolate_state_mutable_sequence, hcoreE]
  · intro hin hout
    obtain ⟨ti, hti, htiin⟩ := hin
    obtain ⟨to2, hto2, hto2out⟩ := hout
    have hinB : ∃ t ∈ times, inRangeB (a :: l) t = true :=
      ⟨ti, hti, by simp [inRangeB, htiin]⟩
    have houtB : ∃ t ∈ times, inRangeB (a :: l) t = false :=
      ⟨to2, hto2, by simp only [inRangeB, decide_eq_false_iff_not]; exact hto2out⟩
    obtain ⟨outs, warning, hcore, hmap, hwnone, hwsome⟩ :=
      interpolateCore_ok a l times hsort hne hinB
    rw [hwsome houtB] at hcore
    refine ⟨⟨outs, md.map fun _ => []⟩,
      (times.filter (fun t => !inRangeB (a :: l) t)).dedup, ?_, ?_, hmap⟩
    · simp [interpolate_state_mutable_sequence, hcore]
    · intro t
      simp only [List.mem_dedup, List.mem_filter, Bool.not_eq_true', inRangeB,
        decide_eq_false_iff_not]

/-- Witness for C3: sequence spanning times 0..10, queries `[5, 15]`: warning
names exactly `{15}` and only time 5 is processed. -/
theorem spec_C3_range_clipping_witness :
    List.Sorted tsle [⟨0, [0], 0⟩, ⟨10, [1], 0⟩] ∧ ([5, 15] : List ℚ) ≠ [] ∧
    (((∀ t ∈ ([5, 15] : List ℚ),
        ¬ (seqMinTime [⟨0, [0], 0⟩, ⟨10, [1], 0⟩] ≤ t ∧
           t ≤ seqMaxTime [⟨0, [0], 0⟩, ⟨10, [1], 0⟩])) →
      interpolate_state_mutable_sequence ⟨[⟨0, [0], 0⟩, ⟨10, [1], 0⟩], none⟩ [5, 15] =
        .error .allOutsideRange) ∧
    ((∃ t ∈ ([5, 15] : List ℚ),
        seqMinTime [⟨0, [0], 0⟩, ⟨10, [1], 0⟩] ≤ t ∧
          t ≤ seqMaxTime [⟨0, [0], 0⟩, ⟨10, [1], 0⟩]) →
     (∃ t ∈ ([5, 15] : List ℚ),
        ¬ (seqMinTime [⟨0, [0], 0⟩, ⟨10, [1], 0⟩] ≤ t ∧
           t ≤ seqMaxTime [⟨0, [0], 0⟩, ⟨10, [1], 0⟩])) →
      ∃ outSms w,
        interpolate_state_mutable_sequence ⟨[⟨0, [0], 0⟩, ⟨10, [1], 0⟩], none⟩ [5, 15] =
          .ok (outSms, some w) ∧
        (∀ t, t ∈ w ↔ t ∈ ([5, 15] : List ℚ) ∧
          ¬ (seqMinTime [⟨0, [0], 0⟩, ⟨10, [1], 0⟩] ≤ t ∧
             t ≤ seqMaxTime [⟨0, [0], 0⟩, ⟨10, [1], 0⟩])) ∧
        outSms.states.map (fun s => s.timestamp) =
          ([5, 15] : List ℚ).filter (inRangeB [⟨0, [0], 0⟩, ⟨10, [1], 0⟩]))) :=
  ⟨by decide, by decide,
    spec_C3_range_clipping ⟨0, [0], 0⟩ [⟨10, [1], 0⟩] none [5, 15] (by decide) (by decide)⟩

/-- C4 (amended): the output preserves the caller's original (clipped) query
order with one output state per surviving query occurrence; duplicated query
times are not deduplicated in the output (deduplication happens only for the
internal interpolation step). -/
theorem spec_C4_order_preserved (a : TState) (l : List TState) (md : Option (List ℕ))
    (times : List ℚ)
    (hsort : List.Sorted tsle (a :: l))
    (hne : times ≠ [])
    (hin : ∃ t ∈ times, seqMinTime (a :: l) ≤ t ∧ t ≤ seqMaxTime (a :: l)) :
    ∃ outSms w,
      interpolate_state_mutable_sequence ⟨a :: l, md⟩ times = .ok (outSms, w) ∧
      outSms.states.map (fun s => s.timestamp) = times.filter (inRangeB (a :: l)) := by
  obtain ⟨ti, hti, htiin⟩ := hin
  have hinB : ∃ t ∈ times, inRangeB (a :: l) t = true :=
    ⟨ti, hti, by simp [inRangeB, htiin]⟩
  obtain ⟨outs, warning, hcore, hmap, hwnone, hwsome⟩ :=
    interpolateCore_ok a l times hsort hne hinB
  refine ⟨⟨outs, md.map fun _ => []⟩, warning, ?_, hmap⟩
  simp [interpolate_state_mutable_sequence, hcore]

/-- Witness for C4 (amended): duplicated in-range query `[10, 5, 10]` keeps
its order and multiplicity. -/
theorem spec_C4_order_preserved_witness :
    List.Sorted tsle [⟨0, [0], 0⟩, ⟨10, [1], 0⟩] ∧ ([10, 5, 10] : List ℚ) ≠ [] ∧
    (∃ t ∈ ([10, 5, 10] : List ℚ),
      seqMinTime [⟨0, [0], 0⟩, ⟨10, [1], 0⟩] ≤ t ∧
        t ≤ seqMaxTime [⟨0, [0], 0⟩, ⟨10, [1], 0⟩]) ∧
    (∃ outSms w,
      interpolate_state_mutable_sequence ⟨[⟨0, [0], 0⟩, ⟨10, [1], 0⟩], none⟩ [10, 5, 10] =
        .ok (outSms, w) ∧
      outSms.states.map (fun s => s.timestamp) =
        ([10, 5, 10] : List ℚ).filter (inRangeB [⟨0, [0], 0⟩, ⟨10, [1], 0⟩])) :=
  ⟨by decide, by decide, ⟨10, by decide, by decide, by decide⟩,
    spec_C4_order_preserved ⟨0, [0], 0⟩ [⟨10, [1], 0⟩] none [10, 5, 10] (by decide)
      (by decide) ⟨10, by decide, by decide, by decide⟩⟩

theorem dictGet_split : ∀ (u : List (ℚ × TState)) (t0 : ℚ) (s0 : TState)
    (rest : List (ℚ × TState)),
    List.Sorted (· < ·) (dictKeys (u ++ (t0, s0) :: rest)) →
    dictGet (u ++ (t0, s0) :: rest) t0 = some s0 := by
  intro u
  induction u with
  | nil => intro t0 s0 rest hs; simp [dictGet]
  | cons p u ih =>
    intro t0 s0 rest hs
    have hs' : List.Sorted (· < ·) (p.1 :: dictKeys (u ++ (t0, s0) :: rest)) := by
      simpa [dictKeys] using hs
    have hp : p.1 < t0 :=
      List.rel_of_sorted_cons hs' t0 (by simp [dictKeys])
    have hne : ¬ p.1 = t0 := ne_of_lt hp
    simp only [List.cons_append, dictGet, hne, if_false]
    exact ih t0 s0 rest hs'.of_cons

theorem sorted_split_keys (ku kw : List ℚ) (t0 t1 : ℚ)
    (hs : List.Sorted (· < ·) (ku ++ t0 :: t1 :: kw)) :
    ∀ k ∈ ku ++ t0 :: t1 :: kw, k ≤ t0 ∨ t1 ≤ k := by
  obtain ⟨hku, hmid, hcross⟩ := List.pairwise_append.mp hs
  intro k hk
  rcases List.mem_append.mp hk with hk | hk
  · exact Or.inl (le_of_lt (hcross k hk t0 (by simp)))
  · rcases List.mem_cons.mp hk with hk | hk
    · exact Or.inl (le_of_eq hk)
    · rcases List.mem_cons.mp hk with hk | hk
      · exact Or.inr (le_of_eq hk.symm)
      · exact Or.inr (le_of_lt (List.rel_of_sorted_cons hmid.of_cons k hk))

theorem cursor_prev_of_sorted :
    ∀ (l : List TState) (a b : TState) (t0 t1 t : ℚ),
      List.Sorted tsle (a :: b :: l) →
      (∃ s ∈ a :: b :: l, s.timestamp = t0) →
      (∃ s ∈ a :: b :: l, s.timestamp = t1) →
      (∀ s ∈ a :: b :: l, s.timestamp ≤ t0 ∨ t1 ≤ s.timestamp) →
      t0 < t → t < t1 →
      ∀ (bb : TState) (q : TState × TState) (rest2 : List (TState × TState)),
        advanceCursor t (a, b) (pairwise (b :: l)) = some (bb, q, rest2) →
        some bb = ((a :: b :: l).filter (fun s => decide (s.timestamp = t0))).getLast? := by
  intro l
  induction l with
  | nil =>
    intro a b t0 t1 t hsort h2 h3 h4 h0 h1 bb q rest2 hadv
    have hpw : pairwise ([b] : List TState) = [] := rfl
    rw [hpw] at hadv
    by_cases hb : b.timestamp < t
    · simp [advanceCursor, hb] at hadv
    · simp only [advanceCursor, hb, if_false, Option.some.injEq, Prod.mk.injEq] at hadv
      obtain ⟨hbb, _, _⟩ := hadv
      subst hbb
      have hbt : ¬ b.timestamp = t0 := by
        intro hbt
        exact hb (by rw [hbt]; exact h0)
      obtain ⟨s, hs, hst⟩ := h2
      have hsa : s = a := by
        rcases List.mem_cons.mp hs with hh | hh
        · exact hh
        · have hsb : s = b := by simpa using hh
          rw [hsb] at hst
          exact absurd hst hbt
      rw [hsa] at hst
      rw [List.filter_cons, if_pos (by simp [hst]), List.filter_cons,
        if_neg (by simp [hbt]), List.filter_nil]
      rfl
  | cons c l2 ih =>
    intro a b t0 t1 t hsort h2 h3 h4 h0 h1 bb q rest2 hadv
    rw [pairwise_cons_cons] at hadv
    have hab : tsle a b := List.rel_of_sorted_cons hsort b (by simp)
    by_cases hb : b.timestamp < t
    · have hadv2 : advanceCursor t (b, c) (pairwise (c :: l2)) = some (bb, q, rest2) := by
        simpa [advanceCursor, hb] using hadv
      have hsort2 := hsort.of_cons
      have h3' : ∃ s ∈ b :: c :: l2, s.timestamp = t1 := by
        obtain ⟨s, hs, hst⟩ := h3
        rcases List.mem_cons.mp hs with hh | hh
        · exfalso
          rw [hh] at hst
          have hge : t1 ≤ b.timestamp := by
            rw [← hst]; exact hab
          exact absurd (lt_trans hb h1) (not_lt.mpr hge)
        · exact ⟨s, hh, hst⟩
      have h2' : ∃ s ∈ b :: c :: l2, s.timestamp = t0 := by
        obtain ⟨s, hs, hst⟩ := h2
        rcases List.mem_cons.mp hs with hh | hh
        · have hbge : t0 ≤ b.timestamp := by
            rw [hh] at hst
            rw [← hst]; exact hab
          have hble : b.timestamp ≤ t0 ∨ t1 ≤ b.timestamp := h4 b (by simp)
          have hbt1 : ¬ t1 ≤ b.timestamp := not_le.mpr (lt_trans hb h1)
          exact ⟨b, by simp, le_antisymm (hble.resolve_right hbt1) hbge⟩
        · exact ⟨s, hh, hst⟩
      have h4' : ∀ s ∈ b :: c :: l2, s.timestamp ≤ t0 ∨ t1 ≤ s.timestamp :=
        fun s hs => h4 s (by simp [hs])
      have hres := ih b c t0 t1 t hsort2 h2' h3' h4' h0 h1 bb q rest2 hadv2
      by_cases hat : a.timestamp = t0
      · obtain ⟨s2, hs2, hs2t⟩ := h2'
        have hfne : (b :: c :: l2).filter (fun s => decide (s.timestamp = t0)) ≠ [] := by
          intro hnil
          have hmem : s2 ∈ (b :: c :: l2).filter (fun s => decide (s.timestamp = t0)) :=
            List.mem_filter.mpr ⟨hs2, by simp [hs2t]⟩
          rw [hnil] at hmem
          simp at hmem
        rw [List.filter_cons, if_pos (by simp [hat]), getLast?_cons_of_ne_nil _ hfne]
        exact hres
      · rw [List.filter_cons, if_neg (by simp [hat])]
        exact hres
    · simp only [advanceCursor, hb, if_false, Option.some.injEq, Prod.mk.injEq] at hadv
      obtain ⟨hbb, _, _⟩ := hadv
      subst hbb
      have hbge : t ≤ b.timestamp := not_lt.mp hb
      have htail_gt : ∀ s ∈ b :: c :: l2, ¬ s.timestamp = t0 := by
        intro s hs hst
        have hle : b.timestamp ≤ s.timestamp :=
          sorted_headD_le (c :: l2) b hsort.of_cons s hs
        rw [hst] at hle
        exact absurd (lt_of_lt_of_le h0 (le_trans hbge hle)) (lt_irrefl t0)
      obtain ⟨s, hs, hst⟩ := h2
      have hsa : s = a := by
        rcases List.mem_cons.mp hs with hh | hh
        · exact hh
        · exact absurd hst (htail_gt s hh)
      rw [hsa] at hst
      have hftail : (b :: c :: l2).filter (fun s => decide (s.timestamp = t0)) = [] := by
        rw [List.filter_eq_nil_iff]
        intro s hs
        simp only [decide_eq_true_eq]
        exact htail_gt s hs
      rw [List.filter_cons, if_pos (by simp [hst]), hftail]
      rfl

theorem range_map_getD (n i : ℕ) (f : ℕ → ℚ) (h : i < n) :
    ((List.range n).map f).getD i 0 = f i := by
  rw [List.getD_eq_getElem?_getD, List.getElem?_map, List.getElem?_range h]
  rfl

theorem map_proj_fst (d : List (ℚ × TState)) (i : ℕ) :
    (d.map (fun p => (p.1, p.2.state_vector.getD i 0))).map Prod.fst = dictKeys d := by
  simp only [List.map_map]
  rfl

theorem interior_main (a : TState) (l : List TState) (u w : List (ℚ × TState))
    (t0 t1 t : ℚ) (s0 s1 : TState)
    (hsort : List.Sorted tsle (a :: l))
    (hsplit : buildDict (a :: l) = u ++ (t0, s0) :: (t1, s1) :: w)
    (h0 : t0 < t) (h1 : t < t1) :
    ∃ prev : TState,
      some prev = ((a :: l).filter (fun s => decide (s.timestamp = t0))).getLast? ∧
      ∀ md : Option (List ℕ),
        interpolate_state_mutable_sequence ⟨a :: l, md⟩ [t] =
          .ok (⟨[prev.from_state t
              (interpVector (buildDict (a :: l))
                (((a :: l).getLastD default).state_vector.length) t)],
            md.map fun _ => []⟩, none) := by
  have hks : List.Sorted (· < ·) (dictKeys (buildDict (a :: l))) :=
    buildDict_keys_sorted _ hsort
  have hkeys_eq : dictKeys (buildDict (a :: l)) = dictKeys u ++ t0 :: t1 :: dictKeys w := by
    rw [hsplit]
    simp [dictKeys]
  have ht0k : t0 ∈ dictKeys (buildDict (a :: l)) := by rw [hkeys_eq]; simp
  have ht1k : t1 ∈ dictKeys (buildDict (a :: l)) := by rw [hkeys_eq]; simp
  have hchar : ∀ k ∈ dictKeys (buildDict (a :: l)), k ≤ t0 ∨ t1 ≤ k := by
    rw [hkeys_eq] at hks ⊢
    exact sorted_split_keys _ _ _ _ hks
  have htk : t ∉ dictKeys (buildDict (a :: l)) := by
    intro hk
    rcases hchar t hk with h | h
    · exact absurd h (not_le.mpr h0)
    · exact absurd h (not_le.mpr h1)
  have ht0s : ∃ s ∈ a :: l, s.timestamp = t0 := (mem_buildDict_keys _ _).mp ht0k
  have ht1s : ∃ s ∈ a :: l, s.timestamp = t1 := (mem_buildDict_keys _ _).mp ht1k
  have hstate_char : ∀ s ∈ a :: l, s.timestamp ≤ t0 ∨ t1 ≤ s.timestamp := by
    intro s hs
    exact hchar s.timestamp ((mem_buildDict_keys _ _).mpr ⟨s, hs, rfl⟩)
  obtain ⟨sA, hsA, hsAt⟩ := ht0s
  obtain ⟨sB, hsB, hsBt⟩ := ht1s
  have hmin : seqMinTime (a :: l) ≤ t := by
    have hh := sorted_headD_le l a hsort sA hsA
    rw [hsAt] at hh
    have : seqMinTime (a :: l) = a.timestamp := by simp [seqMinTime]
    rw [this]
    exact le_of_lt (lt_of_le_of_lt hh h0)
  have hmax : t ≤ seqMaxTime (a :: l) := by
    have hh := sorted_le_getLastD l a hsort sB hsB
    rw [hsBt] at hh
    exact le_of_lt (lt_of_lt_of_le h1 hh)
  cases l with
  | nil =>
    exfalso
    have hb1 : buildDict [a] = [(a.timestamp, a)] := rfl
    rw [hsplit] at hb1
    have hlen := congrArg List.length hb1
    simp [List.length_append] at hlen
    omega
  | cons b l2 =>
    have ht0s' : ∃ s ∈ a :: b :: l2, s.timestamp = t0 := ⟨sA, hsA, hsAt⟩
    have ht1s' : ∃ s ∈ a :: b :: l2, s.timestamp = t1 := ⟨sB, hsB, hsBt⟩
    have htti : timesToInterp (a :: b :: l2) [t] = [t] := by
      simp only [timesToInterp]
      rw [show ([t] : List ℚ).dedup = [t] from by simp]
      rw [List.filter_cons, if_pos (by simp [htk]), List.filter_nil]
      rfl
    have hf : (timesToInterp (a :: b :: l2) [t]).isEmpty = false := by rw [htti]; rfl
    obtain ⟨qlast, hqlast, hqlast2⟩ := pairwise_exists_last l2 a b
    rw [pairwise_cons_cons] at hqlast
    have hex : ∃ q2 ∈ (a, b) :: pairwise (b :: l2), t ≤ q2.2.timestamp := by
      refine ⟨qlast, hqlast, ?_⟩
      rw [hqlast2]
      exact hmax
    obtain ⟨bb, q, rest2, hadv⟩ := advanceCursor_isSome _ _ _ hex
    have hprev := cursor_prev_of_sorted l2 a b t0 t1 t hsort ht0s' ht1s' hstate_char
      h0 h1 bb q rest2 hadv
    refine ⟨bb, hprev, ?_⟩
    intro md
    have hsynth : synthLoop
        (interpVector (buildDict (a :: b :: l2))
          (((a :: b :: l2).getLastD default).state_vector.length))
        ((a, b), pairwise (b :: l2)) (buildDict (a :: b :: l2)) [t] =
        .ok (dictInsert (buildDict (a :: b :: l2)) t
          (bb.from_state t
            (interpVector (buildDict (a :: b :: l2))
              (((a :: b :: l2).getLastD default).state_vector.length) t))) := by
      simp only [synthLoop, hadv]
    have hlook : lookupAll
        (dictInsert (buildDict (a :: b :: l2)) t
          (bb.from_state t
            (interpVector (buildDict (a :: b :: l2))
              (((a :: b :: l2).getLastD default).state_vector.length) t))) [t] =
        some [bb.from_state t
          (interpVector (buildDict (a :: b :: l2))
            (((a :: b :: l2).getLastD default).state_vector.length) t)] := by
      simp [lookupAll, dictGet_insert]
    have hac : interpolateAfterClip (a :: b :: l2) [t] =
        .ok [bb.from_state t
          (interpVector (buildDict (a :: b :: l2))
            (((a :: b :: l2).getLastD default).state_vector.length) t)] := by
      simp only [interpolateAfterClip, htti, List.isEmpty_cons, Bool.false_eq_true, if_false,
        pairwise_cons_cons, hsynth, hlook]
    have hmax1 : listMax [t] = t := by simp [listMax]
    have hmin1 : listMin [t] = t := by simp [listMin]
    have hcond : ¬ (listMax [t] > seqMaxTime (a :: b :: l2) ∨
        listMin [t] < seqMinTime (a :: b :: l2)) := by
      rw [hmax1, hmin1]
      push_neg
      exact ⟨hmax, hmin⟩
    have hcore : interpolateCore (a :: b :: l2) [t] =
        .ok ([bb.from_state t
          (interpVector (buildDict (a :: b :: l2))
            (((a :: b :: l2).getLastD default).state_vector.length) t)], none) := by
      simp only [interpolateCore, List.isEmpty_cons, Bool.false_eq_true, if_false]
      rw [if_neg hcond]
      simp [hac]
    simp [interpolate_state_mutable_sequence, hcore]

/-- C1: for a query time strictly between two consecutive timeline timestamps
`t0 < t < t1` with stored states `s0, s1`, the state returned for `t` has
vector `v0 + (v1 - v0) * (t - t0)/(t1 - t0)`, computed independently for each
vector component. -/
theorem spec_C1_linearity (a : TState) (l : List TState) (md : Option (List ℕ))
    (u w : List (ℚ × TState)) (t0 t1 t : ℚ) (s0 s1 : TState)
    (hsort : List.Sorted tsle (a :: l))
    (hsplit : buildDict (a :: l) = u ++ (t0, s0) :: (t1, s1) :: w)
    (h0 : t0 < t) (h1 : t < t1) :
    ∃ st : TState,
      interpolate_state_mutable_sequence ⟨a :: l, md⟩ [t] =
        .ok (⟨[st], md.map fun _ => []⟩, none) ∧
      st.timestamp = t ∧
      ∀ i < ((a :: l).getLastD default).state_vector.length,
        st.state_vector.getD i 0 =
          s0.state_vector.getD i 0 +
            (s1.state_vector.getD i 0 - s0.state_vector.getD i 0) * (t - t0) / (t1 - t0) := by
  obtain ⟨prev, hprev, hrun⟩ := interior_main a l u w t0 t1 t s0 s1 hsort hsplit h0 h1
  refine ⟨prev.from_state t
    (interpVector (buildDict (a :: l)) (((a :: l).getLastD default).state_vector.length) t),
    hrun md, rfl, ?_⟩
  intro i hi
  have hst : (prev.from_state t
      (interpVector (buildDict (a :: l))
        (((a :: l).getLastD default).state_vector.length) t)).state_vector =
      interpVector (buildDict (a :: l)) (((a :: l).getLastD default).state_vector.length) t :=
    rfl
  rw [hst]
  have hcomp : (interpVector (buildDict (a :: l))
      (((a :: l).getLastD default).state_vector.length) t).getD i 0 =
      interp1 t ((buildDict (a :: l)).map (fun p => (p.1, p.2.state_vector.getD i 0))) := by
    simp only [interpVector]
    exact range_map_getD _ i _ hi
  rw [hcomp]
  have hmapeq : (buildDict (a :: l)).map (fun p => (p.1, p.2.state_vector.getD i 0)) =
      u.map (fun p => (p.1, p.2.state_vector.getD i 0)) ++
        (t0, s0.state_vector.getD i 0) :: (t1, s1.state_vector.getD i 0) ::
        w.map (fun p => (p.1, p.2.state_vector.getD i 0)) := by
    rw [hsplit]
    simp
  have hsorted_fst : List.Sorted (· < ·)
      (((buildDict (a :: l)).map
        (fun p => (p.1, p.2.state_vector.getD i 0))).map Prod.fst) := by
    rw [map_proj_fst]
    exact buildDict_keys_sorted _ hsort
  rw [hmapeq] at hsorted_fst ⊢
  exact interp1_interior _ t0 _ t1 _ _ t hsorted_fst h0 (le_of_lt h1)

/-- Witness for C1: states at times 0 and 10 with vectors `[0,0]` and
`[10,20]`; the interpolated state at time 5 has vector `[5,10]`
component-wise. -/
theorem spec_C1_linearity_witness :
    List.Sorted tsle [⟨0, [0, 0], 7⟩, ⟨10, [10, 20], 9⟩] ∧
    buildDict [⟨0, [0, 0], 7⟩, ⟨10, [10, 20], 9⟩] =
      [] ++ (0, ⟨0, [0, 0], 7⟩) :: (10, ⟨10, [10, 20], 9⟩) :: [] ∧
    (0 : ℚ) < 5 ∧ (5 : ℚ) < 10 ∧
    (∃ st : TState,
      interpolate_state_mutable_sequence ⟨[⟨0, [0, 0], 7⟩, ⟨10, [10, 20], 9⟩], none⟩ [5] =
        .ok (⟨[st], none⟩, none) ∧
      st.timestamp = 5 ∧
      ∀ i < (([⟨0, [0, 0], 7⟩, ⟨10, [10, 20], 9⟩] :
          List TState).getLastD default).state_vector.length,
        st.state_vector.getD i 0 =
          (⟨0, [0, 0], 7⟩ : TState).state_vector.getD i 0 +
            ((⟨10, [10, 20], 9⟩ : TState).state_vector.getD i 0 -
              (⟨0, [0, 0], 7⟩ : TState).state_vector.getD i 0) * (5 - 0) / (10 - 0)) :=
  ⟨by decide, by decide, by decide, by decide,
    spec_C1_linearity ⟨0, [0, 0], 7⟩ [⟨10, [10, 20], 9⟩] none [] [] 0 10 5
      ⟨0, [0, 0], 7⟩ ⟨10, [10, 20], 9⟩ (by decide) (by decide) (by decide) (by decide)⟩

/-- C5: a state synthesized for an interior query time is cloned from the
timeline predecessor state `s0` (the later-in-original-order state at the
greatest timeline timestamp below `t`), never the successor: its non-vector
attributes equal `s0`'s, its timestamp is `t`, and its vector is the
interpolated vector. -/
theorem spec_C5_template_fidelity (a : TState) (l : List TState) (md : Option (List ℕ))
    (u w : List (ℚ × TState)) (t0 t1 t : ℚ) (s0 s1 : TState)
    (hsort : List.Sorted tsle (a :: l))
    (hsplit : buildDict (a :: l) = u ++ (t0, s0) :: (t1, s1) :: w)
    (h0 : t0 < t) (h1 : t < t1) :
    ∃ st : TState,
      interpolate_state_mutable_sequence ⟨a :: l, md⟩ [t] =
        .ok (⟨[st], md.map fun _ => []⟩, none) ∧
      st.timestamp = t ∧
      st.attrs = s0.attrs ∧
      some s0 = ((a :: l).filter (fun s => decide (s.timestamp = t0))).getLast? ∧
      st.state_vector =
        interpVector (buildDict (a :: l))
          (((a :: l).getLastD default).state_vector.length) t := by
  obtain ⟨prev, hprev, hrun⟩ := interior_main a l u w t0 t1 t s0 s1 hsort hsplit h0 h1
  have hs0get : dictGet (buildDict (a :: l)) t0 = some s0 := by
    rw [hsplit]
    exact dictGet_split u t0 s0 _ (hsplit ▸ buildDict_keys_sorted _ hsort)
  have hs0last : ((a :: l).filter (fun s => decide (s.timestamp = t0))).getLast? = some s0 := by
    rw [← buildDict_get]
    exact hs0get
  have hprev_eq : prev = s0 := by
    rw [hs0last] at hprev
    exact Option.some_inj.mp hprev
  subst hprev_eq
  exact ⟨prev.from_state t
    (interpVector (buildDict (a :: l)) (((a :: l).getLastD default).state_vector.length) t),
    hrun md, rfl, rfl, hs0last.symm, rfl⟩

/-- Witness for C5: predecessor attrs 7 (not successor attrs 9) are copied to
the synthesized state at time 5. -/
theorem spec_C5_template_fidelity_witness :
    List.Sorted tsle [⟨0, [0, 0], 7⟩, ⟨10, [10, 20], 9⟩] ∧
    buildDict [⟨0, [0, 0], 7⟩, ⟨10, [10, 20], 9⟩] =
      [] ++ (0, ⟨0, [0, 0], 7⟩) :: (10, ⟨10, [10, 20], 9⟩) :: [] ∧
    (0 : ℚ) < 5 ∧ (5 : ℚ) < 10 ∧
    (∃ st : TState,
      interpolate_state_mutable_sequence ⟨[⟨0, [0, 0], 7⟩, ⟨10, [10, 20], 9⟩], none⟩ [5] =
        .ok (⟨[st], none⟩, none) ∧
      st.timestamp = 5 ∧
      st.attrs = (⟨0, [0, 0], 7⟩ : TState).attrs ∧
      some (⟨0, [0, 0], 7⟩ : TState) =
        (([⟨0, [0, 0], 7⟩, ⟨10, [10, 20], 9⟩] : List TState).filter
          (fun s => decide (s.timestamp = 0))).getLast? ∧
      st.state_vector =
        interpVector (buildDict [⟨0, [0, 0], 7⟩, ⟨10, [10, 20], 9⟩])
          ((([⟨0, [0, 0], 7⟩, ⟨10, [10, 20], 9⟩] :
            List TState).getLastD default).state_vector.length) 5) :=
  ⟨by decide, by decide, by decide, by decide,
    spec_C5_template_fidelity ⟨0, [0, 0], 7⟩ [⟨10, [10, 20], 9⟩] none [] [] 0 10 5
      ⟨0, [0, 0], 7⟩ ⟨10, [10, 20], 9⟩ (by decide) (by decide) (by decide) (by decide)⟩

theorem find?_append_of_forall_neg {α : Type} :
    ∀ (l1 l2 : List α) (p : α → Bool),
      (∀ x ∈ l1, p x = false) → (l1 ++ l2).find? p = l2.find? p := by
  intro l1
  induction l1 with
  | nil => intro l2 p h; rfl
  | cons a l ih =>
    intro l2 p h
    have ha := h a (by simp)
    rw [List.cons_append]
    simp only [List.find?_cons, ha]
    exact ih l2 p (fun x hx => h x (by simp [hx]))

theorem runCursor_spec :
    ∀ (qs : List ℚ) (dr : List (TState × TState)) (p : TState × TState)
      (rest : List (TState × TState)),
      List.Pairwise (· ≤ ·) qs →
      (∀ x ∈ dr, ∀ q2 ∈ qs, x.2.timestamp < q2) →
      (∀ q2 ∈ qs, ∃ x ∈ p :: rest, q2 ≤ x.2.timestamp) →
      ∃ res, runCursor (p, rest) qs = .ok res ∧
        res.map some = qs.map (fun t =>
          ((dr ++ p :: rest).find? (fun x => decide (t ≤ x.2.timestamp))).map Prod.fst) := by
  intro qs
  induction qs with
  | nil => intro dr p rest hq hdr hall; exact ⟨[], rfl, by simp⟩
  | cons t ts ih =>
    intro dr p rest hq hdr hall
    obtain ⟨bb, q, rest2, hadv⟩ := advanceCursor_isSome rest p t (hall t (by simp))
    obtain ⟨hb, hle, dr2, hsplit, hdr2⟩ := advanceCursor_some_spec rest p t bb q rest2 hadv
    have hfind : (dr ++ p :: rest).find? (fun x => decide (t ≤ x.2.timestamp)) = some q := by
      rw [hsplit, ← List.append_assoc]
      rw [find?_append_of_forall_neg _ _ _ ?hneg]
      case hneg =>
        intro x hx
        rcases List.mem_append.mp hx with hx | hx
        · simp only [decide_eq_false_iff_not, not_le]
          exact hdr x hx t (by simp)
        · simp only [decide_eq_false_iff_not, not_le]
          exact hdr2 x hx
      exact List.find?_cons_of_pos _ (by simp [hle])
    have hdr' : ∀ x ∈ dr ++ dr2, ∀ q2 ∈ ts, x.2.timestamp < q2 := by
      intro x hx q2 hq2
      have htq2 : t ≤ q2 := List.rel_of_pairwise_cons hq hq2
      rcases List.mem_append.mp hx with hx | hx
      · exact hdr x hx q2 (by simp [hq2])
      · exact lt_of_lt_of_le (hdr2 x hx) htq2
    have hall' : ∀ q2 ∈ ts, ∃ x ∈ q :: rest2, q2 ≤ x.2.timestamp := by
      intro q2 hq2
      obtain ⟨x, hx, hxle⟩ := hall q2 (by simp [hq2])
      rw [hsplit] at hx
      rcases List.mem_append.mp hx with hx | hx
      · exfalso
        have h1 : x.2.timestamp < t := hdr2 x hx
        have h2 : t ≤ q2 := List.rel_of_pairwise_cons hq hq2
        exact absurd hxle (not_le.mpr (lt_of_lt_of_le h1 h2))
      · exact ⟨x, hx, hxle⟩
    obtain ⟨res, hrun, hmap⟩ := ih (dr ++ dr2) q rest2 (List.Pairwise.of_cons hq) hdr' hall'
    refine ⟨bb :: res, ?_, ?_⟩
    · simp only [runCursor, hadv, hrun]
      rfl
    · rw [List.map_cons, List.map_cons, hfind]
      have htail : res.map some = ts.map (fun t2 =>
          ((dr ++ p :: rest).find? (fun x => decide (t2 ≤ x.2.timestamp))).map Prod.fst) := by
        rw [hmap]
        congr 1
        rw [hsplit, ← List.append_assoc]
      rw [htail, hb]
      rfl

theorem runCursor_err :
    ∀ (qs : List ℚ) (p : TState × TState) (rest : List (TState × TState)) (L t2 : ℚ),
      (∀ x ∈ p :: rest, x.2.timestamp ≤ L) → L < t2 →
      runCursor (p, rest) (qs ++ [t2]) = .error () := by
  intro qs
  induction qs with
  | nil =>
    intro p rest L t2 hbound hL
    have hnone : advanceCursor t2 p rest = none := by
      rw [advanceCursor_none_iff]
      intro q hq
      exact lt_of_le_of_lt (hbound q hq) hL
    simp [runCursor, hnone]
  | cons t ts ih =>
    intro p rest L t2 hbound hL
    rcases hadv : advanceCursor t p rest with _ | ⟨bb, q, rest2⟩
    · simp [runCursor, hadv]
    · obtain ⟨hb, hle, dr, hsplit, hdr⟩ := advanceCursor_some_spec rest p t bb q rest2 hadv
      have hbound2 : ∀ x ∈ q :: rest2, x.2.timestamp ≤ L := by
        intro x hx
        apply hbound
        rw [hsplit]
        exact List.mem_append.mpr (Or.inr hx)
      have hrec := ih q rest2 L t2 hbound2 hL
      rw [show ((t :: ts) ++ [t2]) = t :: (ts ++ [t2]) from rfl]
      simp only [runCursor, hadv, hrec]
      rfl

/-- C6: over a sequence of at least two states (sorted by timestamp) and
non-decreasing call times, every call with `t` not exceeding the last timeline
timestamp returns the earlier element of the first consecutive pair whose
later timestamp is `>= t`; a call with `t` beyond the last timestamp raises
the exhausted-iterator error instead of returning a state. -/
theorem spec_C6_previous_state_cursor (a b : TState) (l : List TState) (qs : List ℚ)
    (hsort : List.Sorted tsle (a :: b :: l))
    (hmono : List.Pairwise (· ≤ ·) qs) :
    ((∀ t2 ∈ qs, t2 ≤ seqMaxTime (a :: b :: l)) →
      ∃ res, runCursor ((a, b), pairwise (b :: l)) qs = .ok res ∧
        res.map some = qs.map (fun t =>
          (((a, b) :: pairwise (b :: l)).find?
            (fun x => decide (t ≤ x.2.timestamp))).map Prod.fst)) ∧
    (∀ t2, seqMaxTime (a :: b :: l) < t2 →
      runCursor ((a, b), pairwise (b :: l)) (qs ++ [t2]) = .error ()) := by
  have hbound : ∀ x ∈ (a, b) :: pairwise (b :: l), x.2.timestamp ≤ seqMaxTime (a :: b :: l) := by
    intro x hx
    rcases List.mem_cons.mp hx with hx | hx
    · subst hx
      exact sorted_le_getLastD _ _ hsort b (by simp)
    · rcases x with ⟨x1, x2⟩
      have hx2 : x2 ∈ l := (List.of_mem_zip hx).2
      exact sorted_le_getLastD _ _ hsort x2 (by simp [hx2])
  constructor
  · intro hall
    obtain ⟨qlast, hqlast, hqlast2⟩ := pairwise_exists_last l a b
    rw [pairwise_cons_cons] at hqlast
    have hex : ∀ q2 ∈ qs, ∃ x ∈ (a, b) :: pairwise (b :: l), q2 ≤ x.2.timestamp := by
      intro q2 hq2
      refine ⟨qlast, hqlast, ?_⟩
      rw [hqlast2]
      exact hall q2 hq2
    obtain ⟨res, hrun, hmap⟩ :=
      runCursor_spec qs [] (a, b) (pairwise (b :: l)) hmono (by simp) hex
    exact ⟨res, hrun, by simpa using hmap⟩
  · intro t2 hgt
    exact runCursor_err qs (a, b) (pairwise (b :: l)) (seqMaxTime (a :: b :: l)) t2 hbound hgt

/-- Witness for C6: timeline `0, 10, 20`, monotone queries `[5, 15]`, and the
exhausted-timeline error at query 25. -/
theorem spec_C6_previous_state_cursor_witness :
    List.Sorted tsle [⟨0, [0], 1⟩, ⟨10, [1], 2⟩, ⟨20, [2], 3⟩] ∧
    List.Pairwise (· ≤ ·) ([5, 15] : List ℚ) ∧
    (((∀ t2 ∈ ([5, 15] : List ℚ),
        t2 ≤ seqMaxTime [⟨0, [0], 1⟩, ⟨10, [1], 2⟩, ⟨20, [2], 3⟩]) →
      ∃ res, runCursor ((⟨0, [0], 1⟩, ⟨10, [1], 2⟩), pairwise [⟨10, [1], 2⟩, ⟨20, [2], 3⟩])
          [5, 15] = .ok res ∧
        res.map some = ([5, 15] : List ℚ).map (fun t =>
          (((⟨0, [0], 1⟩, ⟨10, [1], 2⟩) :: pairwise [⟨10, [1], 2⟩, ⟨20, [2], 3⟩]).find?
            (fun x => decide (t ≤ x.2.timestamp))).map Prod.fst)) ∧
    (∀ t2, seqMaxTime [⟨0, [0], 1⟩, ⟨10, [1], 2⟩, ⟨20, [2], 3⟩] < t2 →
      runCursor ((⟨0, [0], 1⟩, ⟨10, [1], 2⟩), pairwise [⟨10, [1], 2⟩, ⟨20, [2], 3⟩])
        ([5, 15] ++ [t2]) = .error ())) :=
  ⟨by decide, by decide,
    spec_C6_previous_state_cursor ⟨0, [0], 1⟩ ⟨10, [1], 2⟩ [⟨20, [2], 3⟩] [5, 15]
      (by decide) (by decide)⟩
